import Mathlib

/-!
Verification of the rect-lib rectangle library.

The library is generic over an ordered numeric coordinate type (`Unit : Num +
One + Ord`); we embed it with `Int` coordinates.  A rectangle is identified
with its four inclusive sides; the trait's accessors are the projections and
`new_from_sides` is the anonymous constructor.  The concrete
`BasicRectangle` implementation (stored as x/y/width/height over `i32`) is
embedded separately with explicit wrapping arithmetic modulo 2^32.

The sweep-line decomposition `unobstructed_subrectangles` exists in the
source in two textually duplicated snapshots (the trait default method in
`lib.rs` and `unobstructed_subrectangles_impl` in
`unobstructed_sweep_line.rs`); they perform the same steps in the same
order, and are embedded once below.  Rust's `sort_unstable_by` leaves the
relative order of equal keys unspecified; the embedding resolves it to the
stable order (which is what Rust's insertion-sort small-slice path produces
on the inputs appearing in the library's own tests).
-/

namespace RectLib

/-- A rectangle given by its four inclusive sides, as in the `Rectangle`
trait: `left`, `right`, `top`, `bottom`.  `top` is the numerically larger
vertical side under the library's convention. -/
structure Rect where
  left : Int
  right : Int
  top : Int
  bottom : Int
deriving DecidableEq, Repr

namespace Rect

/-- `width = right - left` (lib.rs). -/
def width (r : Rect) : Int := r.right - r.left

/-- `height = top - bottom` (lib.rs). -/
def height (r : Rect) : Int := r.top - r.bottom

/-- `area = width * height` (lib.rs). -/
def area (r : Rect) : Int := r.width * r.height

/-- `perimeter = (width + height) * 2` (lib.rs). -/
def perimeter (r : Rect) : Int := (r.width + r.height) * 2

/-- `translate` shifts every side (lib.rs). -/
def translate (r : Rect) (x y : Int) : Rect :=
  ⟨r.left + x, r.right + x, r.top + y, r.bottom + y⟩

/-- `contains_point` (lib.rs). -/
def contains_point (r : Rect) (x y : Int) : Prop :=
  x ≥ r.left ∧ x ≤ r.right ∧ y ≤ r.top ∧ y ≥ r.bottom

instance (r : Rect) (x y : Int) : Decidable (r.contains_point x y) := by
  unfold contains_point; infer_instance

/-- `contains_rectangle` (lib.rs). -/
def contains_rectangle (r o : Rect) : Prop :=
  r.left ≤ o.left ∧ r.right ≥ o.right ∧ r.top ≥ o.top ∧ r.bottom ≤ o.bottom

instance (r o : Rect) : Decidable (r.contains_rectangle o) := by
  unfold contains_rectangle; infer_instance

/-- `overlaps` (lib.rs). -/
def overlaps (r o : Rect) : Prop :=
  r.left ≤ o.right ∧ r.right ≥ o.left ∧ r.top ≥ o.bottom ∧ r.bottom ≤ o.top

instance (r o : Rect) : Decidable (r.overlaps o) := by
  unfold overlaps; infer_instance

/-- `intersection` (lib.rs): clamp the four sides, return the result only
when it is non-degenerate. -/
def intersection (r o : Rect) : Option Rect :=
  let left := max r.left o.left
  let right := min r.right o.right
  let top := min r.top o.top
  let bottom := max r.bottom o.bottom
  if left ≤ right ∧ bottom ≤ top then some ⟨left, right, top, bottom⟩ else none

/-- The data-model invariant: `left ≤ right ∧ bottom ≤ top`. -/
def valid (r : Rect) : Prop := r.left ≤ r.right ∧ r.bottom ≤ r.top

instance (r : Rect) : Decidable r.valid := by
  unfold valid; infer_instance

end Rect

/-! ### BasicRectangle

`basic_rectangle.rs` stores `x`, `y`, `width`, `height` as `i32` and derives
the sides.  `i32` arithmetic is embedded as `Int` arithmetic wrapped into
`[-2^31, 2^31)`. -/

/-- Wrap an integer into the `i32` range, the semantics of Rust's two's
complement `i32` arithmetic. -/
def wrap32 (n : Int) : Int := (n + 2 ^ 31) % 2 ^ 32 - 2 ^ 31

/-- `n` is a representable `i32` value. -/
def inI32 (n : Int) : Prop := -2 ^ 31 ≤ n ∧ n < 2 ^ 31

instance (n : Int) : Decidable (inI32 n) := by
  unfold inI32; infer_instance

/-- The concrete rectangle of `basic_rectangle.rs`: an x/y anchor at the
top-left corner plus width and height, all `i32`. -/
structure BasicRectangle where
  x : Int
  y : Int
  width : Int
  height : Int
deriving DecidableEq, Repr

namespace BasicRectangle

/-- `new_from_sides` (basic_rectangle.rs): `x = left`, `y = top`,
`width = right - left + 1`, `height = top - bottom + 1`, in `i32`
arithmetic. -/
def new_from_sides (left right top bottom : Int) : BasicRectangle :=
  ⟨left, top, wrap32 (right - left + 1), wrap32 (top - bottom + 1)⟩

/-- `left()` returns the stored `x`. -/
def left (r : BasicRectangle) : Int := r.x

/-- `right()` computes `x + width - 1` in `i32` arithmetic. -/
def right (r : BasicRectangle) : Int := wrap32 (r.x + r.width - 1)

/-- `top()` returns the stored `y`. -/
def top (r : BasicRectangle) : Int := r.y

/-- `bottom()` computes `y - height + 1` in `i32` arithmetic. -/
def bottom (r : BasicRectangle) : Int := wrap32 (r.y - r.height + 1)

end BasicRectangle

/-! ### The sweep-line decomposition

Straight translation of `unobstructed_subrectangles_impl`
(`unobstructed_sweep_line.rs`), identical to the trait default method in
`lib.rs`.  The iterator pipelines become explicit recursions; uniqueness
guards, accumulation order and the double scan of the old active list in
the close branch are kept exactly as in the source. -/

/-- `UnfinishedRect`: an active rectangle of the sweep, with fixed left edge
and `(top, bottom)` shape and an undetermined right edge. -/
structure UnfinishedRect where
  left : Int
  top : Int
  bottom : Int
deriving DecidableEq, Repr

/-- `Gap`: a free vertical interval `[bottom, top]` at the current sweep
position. -/
structure Gap where
  top : Int
  bottom : Int
deriving DecidableEq, Repr

/-- `Line`: a sweep position `x` that either opens or closes gaps. -/
structure Line where
  x : Int
  opens : Bool
deriving DecidableEq, Repr

/-- Stable insertion of an obstruction into a list sorted by descending
`top`; models `obstructions.sort_unstable_by(|a, b| b.top().cmp(&a.top()))`
resolved stably. -/
def insertObs (r : Rect) : List Rect → List Rect
  | [] => [r]
  | a :: rest => if a.top > r.top then a :: insertObs r rest else r :: a :: rest

/-- Sort obstructions by descending `top` (stable). -/
def sortObs : List Rect → List Rect
  | [] => []
  | a :: rest => insertObs a (sortObs rest)

/-- Stable insertion of a line into a list sorted by ascending `x`; models
`lines.sort_unstable_by_key(|line| line.x)` resolved stably. -/
def insertLine (l : Line) : List Line → List Line
  | [] => [l]
  | a :: rest => if a.x < l.x then a :: insertLine l rest else l :: a :: rest

/-- Sort lines by ascending `x` (stable). -/
def sortLines : List Line → List Line
  | [] => []
  | a :: rest => insertLine a (sortLines rest)

/-- The loop of `dedup_by_key`: drop every element whose `x` equals the `x`
of the last retained element `prev`. -/
def dedupLoop (prev : Line) : List Line → List Line
  | [] => []
  | b :: rest =>
    if b.x = prev.x then dedupLoop prev rest else b :: dedupLoop b rest

/-- `lines.dedup_by_key(|line| line.x)`: keep the first element of every
run of equal `x` values. -/
def dedupByX : List Line → List Line
  | [] => []
  | a :: rest => a :: dedupLoop a rest

/-- Section 1 of the algorithm: the initial line list — the region's left
edge (opens), then for each obstruction its left edge (closes) and its
right edge plus one (opens), in obstruction order. -/
def buildLines (parent : Rect) (obs : List Rect) : List Line :=
  ⟨parent.left, true⟩ ::
    obs.foldr (fun o acc => ⟨o.left, false⟩ :: ⟨o.right + 1, true⟩ :: acc) []

/-- The event lines of the sweep: built, sorted, deduplicated by `x`, and
restricted to `[parent.left, parent.right]`. -/
def sweepLines (parent : Rect) (obs : List Rect) : List Line :=
  (dedupByX (sortLines (buildLines parent obs))).filter
    (fun l => decide (parent.left ≤ l.x ∧ l.x ≤ parent.right))

/-- Section 2, the shingle scan: fold over the obstructions covering the
current line (sorted by descending top), recording a gap whenever the
cursor is strictly above an obstruction's top and lowering the cursor to
`min cursor (bottom - 1)`.  Returns the recorded gaps and the final
cursor. -/
def gapScan (cursor : Int) : List Rect → List Gap × Int
  | [] => ([], cursor)
  | o :: os =>
    if cursor > o.top then
      (⟨cursor, o.top + 1⟩ :: (gapScan (min cursor (o.bottom - 1)) os).1,
        (gapScan (min cursor (o.bottom - 1)) os).2)
    else
      gapScan (min cursor (o.bottom - 1)) os

/-- The obstructions whose x-span covers the line `x`. -/
def covering (obs : List Rect) (x : Int) : List Rect :=
  obs.filter (fun o => decide (o.left ≤ x ∧ x ≤ o.right))

/-- The cursor left by the shingle scan at line `x`
(`last_rectange_bottom` after the covering loop). -/
def finalCursor (parent : Rect) (obs : List Rect) (x : Int) : Int :=
  (gapScan parent.top (covering obs x)).2

/-- Section 2 in full: the gaps at line `x` — the shingle-scan gaps plus
the trailing gap `[parent.bottom, cursor]` recorded when
`cursor ≥ parent.bottom`. -/
def computeGaps (parent : Rect) (obs : List Rect) (x : Int) : List Gap :=
  if (gapScan parent.top (covering obs x)).2 ≥ parent.bottom then
    (gapScan parent.top (covering obs x)).1 ++
      [⟨(gapScan parent.top (covering obs x)).2, parent.bottom⟩]
  else
    (gapScan parent.top (covering obs x)).1

/-- Stable insertion for the per-line
`active_rectangles.sort_unstable_by_key(|rect| Reverse(rect.left))`:
descending by `left`, resolved stably. -/
def insertActive (r : UnfinishedRect) : List UnfinishedRect → List UnfinishedRect
  | [] => [r]
  | a :: rest =>
    if a.left > r.left then a :: insertActive r rest else r :: a :: rest

/-- Sort active rectangles by descending `left` (stable). -/
def sortActive : List UnfinishedRect → List UnfinishedRect
  | [] => []
  | a :: rest => insertActive a (sortActive rest)

/-- Section 3, an opening line: for each gap in order, start a new active
rectangle at `x` unless an active one already has the gap's
`(top, bottom)` shape (newly started ones count). -/
def openLoop (x : Int) : List Gap → List UnfinishedRect → List UnfinishedRect
  | [], active => active
  | g :: gs, active =>
    if active.any (fun r => decide (g.top = r.top ∧ g.bottom = r.bottom)) then
      openLoop x gs active
    else
      openLoop x gs (active ++ [⟨x, g.top, g.bottom⟩])

/-- The continuation loop inside the close branch: for every gap satisfying
`gap.top ≤ rect.top ∨ rect.bottom ≤ gap.bottom`, start
`(min rect.top gap.top, max rect.bottom gap.bottom)` at the closed
rectangle's left unless that shape already occurs in the full old active
list or among the new ones. -/
def contLoop (fullActive : List UnfinishedRect) (lft rtop rbot : Int) :
    List Gap → List UnfinishedRect → List UnfinishedRect
  | [], na => na
  | g :: gs, na =>
    if decide (g.top ≤ rtop ∨ rbot ≤ g.bottom) then
      let tl := min rtop g.top
      let bl := max rbot g.bottom
      if (fullActive ++ na).any (fun r => decide (tl = r.top ∧ bl = r.bottom)) then
        contLoop fullActive lft rtop rbot gs na
      else
        contLoop fullActive lft rtop rbot gs (na ++ [⟨lft, tl, bl⟩])
    else
      contLoop fullActive lft rtop rbot gs na

/-- Section 3½, a closing line: walk the active list; a rectangle fitting
inside some gap is kept, otherwise it is emitted with right edge `x - 1`
and its continuations are collected.  `fullActive` is the whole active
list being walked (the Rust closure re-reads `active_rectangles` while
filtering it).  Returns (kept, new actives, outputs). -/
def closeStep (x : Int) (gaps : List Gap) (fullActive : List UnfinishedRect) :
    List UnfinishedRect → List UnfinishedRect → List Rect →
    List UnfinishedRect × List UnfinishedRect × List Rect
  | [], na, out => ([], na, out)
  | r :: rest, na, out =>
    if gaps.any (fun g => decide (g.top ≥ r.top ∧ r.bottom ≥ g.bottom)) then
      (r :: (closeStep x gaps fullActive rest na out).1,
        (closeStep x gaps fullActive rest na out).2.1,
        (closeStep x gaps fullActive rest na out).2.2)
    else
      closeStep x gaps fullActive rest
        (contLoop fullActive r.left r.top r.bottom gaps na)
        (out ++ [⟨r.left, x - 1, r.top, r.bottom⟩])

/-- The full close branch at line `x`: walk the sorted active list with
`closeStep`, then append the new active rectangles to the kept ones. -/
def closeResult (x : Int) (gaps : List Gap) (active : List UnfinishedRect)
    (out : List Rect) : List UnfinishedRect × List Rect :=
  ((closeStep x gaps active active [] out).1 ++
      (closeStep x gaps active active [] out).2.1,
    (closeStep x gaps active active [] out).2.2)

/-- Processing one event line: compute the gaps, sort the active list, then
branch on whether the line opens or closes. -/
def lineStep (parent : Rect) (obs : List Rect)
    (st : List UnfinishedRect × List Rect) (line : Line) :
    List UnfinishedRect × List Rect :=
  if line.opens then
    (openLoop line.x (computeGaps parent obs line.x) (sortActive st.1), st.2)
  else
    closeResult line.x (computeGaps parent obs line.x) (sortActive st.1) st.2

/-- The sweep over all event lines, starting from no active rectangles and
no outputs. -/
def sweepRun (parent : Rect) (obs : List Rect) :
    List UnfinishedRect × List Rect :=
  (sweepLines parent obs).foldl (lineStep parent obs) ([], [])

/-- `unobstructed_subrectangles`: sort the obstructions, sweep the event
lines, then flush every remaining active rectangle with right edge
`parent.right` (Section 4). -/
def unobstructed_subrectangles (parent : Rect) (obstructions : List Rect) :
    List Rect :=
  (sweepRun parent (sortObs obstructions)).2 ++
    (sweepRun parent (sortObs obstructions)).1.map
      (fun r => ⟨r.left, parent.right, r.top, r.bottom⟩)

/-! ## Helper lemmas -/

/-- Every gap recorded by the shingle scan spans a nonempty interval:
its bottom (`obstruction.top + 1`) is at most its top (the cursor at the
moment of recording, which was strictly above `obstruction.top`). -/
theorem gapScan_wellformed (c : Int) (l : List Rect) :
    ∀ g ∈ (gapScan c l).1, g.bottom ≤ g.top := by
  induction l generalizing c with
  | nil => intro g hg; simp [gapScan] at hg
  | cons o os ih =>
    intro g hg
    by_cases h : c > o.top
    · simp only [gapScan, if_pos h] at hg
      rcases List.mem_cons.mp hg with h1 | h1
      · subst h1; simp; omega
      · exact ih _ g h1
    · simp only [gapScan, if_neg h] at hg
      exact ih _ g hg

/-- Two active rectangles have different `(top, bottom)` shapes. -/
def shapeNe (a b : UnfinishedRect) : Prop := a.top ≠ b.top ∨ a.bottom ≠ b.bottom

/-- No two entries of the list share a `(top, bottom)` shape. -/
def shapesUnique (l : List UnfinishedRect) : Prop := l.Pairwise shapeNe

theorem shapeNe_symmetric : Symmetric shapeNe := by
  intro a b h
  unfold shapeNe at *
  tauto

/-- `insertActive` builds a permutation of consing. -/
theorem insertActive_perm (r : UnfinishedRect) :
    ∀ l : List UnfinishedRect, List.Perm (insertActive r l) (r :: l) := by
  intro l
  induction l with
  | nil => exact List.Perm.refl _
  | cons a rest ih =>
    unfold insertActive
    by_cases h : a.left > r.left
    · rw [if_pos h]
      exact (ih.cons a).trans (List.Perm.swap r a rest)
    · rw [if_neg h]

/-- `sortActive` permutes its input. -/
theorem sortActive_perm :
    ∀ l : List UnfinishedRect, List.Perm (sortActive l) l := by
  intro l
  induction l with
  | nil => exact List.Perm.refl _
  | cons a rest ih =>
    unfold sortActive
    exact (insertActive_perm a (sortActive rest)).trans (ih.cons a)

theorem shapesUnique_sortActive {l : List UnfinishedRect}
    (h : shapesUnique l) : shapesUnique (sortActive l) :=
  ((sortActive_perm l).pairwise_iff fun hab => shapeNe_symmetric hab).mpr h

/-- Elements produced by `openLoop` either were already active or start at
the line's `x`. -/
theorem openLoop_mem (x : Int) :
    ∀ (gs : List Gap) (active : List UnfinishedRect),
      ∀ a ∈ openLoop x gs active, a ∈ active ∨ a.left = x := by
  intro gs
  induction gs with
  | nil => intro active a ha; exact Or.inl ha
  | cons g rest ih =>
    intro active a ha
    unfold openLoop at ha
    by_cases h : (active.any fun r => decide (g.top = r.top ∧ g.bottom = r.bottom)) = true
    · rw [if_pos h] at ha
      exact ih active a ha
    · rw [if_neg h] at ha
      rcases ih _ a ha with h1 | h1
      · rcases List.mem_append.mp h1 with h2 | h2
        · exact Or.inl h2
        · right
          rw [List.mem_singleton.mp h2]
      · exact Or.inr h1

/-- `openLoop` preserves shape uniqueness: every newly started rectangle's
shape is checked against the whole current list. -/
theorem openLoop_shapesUnique (x : Int) :
    ∀ (gs : List Gap) (active : List UnfinishedRect),
      shapesUnique active → shapesUnique (openLoop x gs active) := by
  intro gs
  induction gs with
  | nil => intro active h; exact h
  | cons g rest ih =>
    intro active h
    unfold openLoop
    by_cases hg : (active.any fun r => decide (g.top = r.top ∧ g.bottom = r.bottom)) = true
    · rw [if_pos hg]
      exact ih active h
    · rw [if_neg hg]
      refine ih _ ?_
      unfold shapesUnique
      rw [List.pairwise_append]
      refine ⟨h, List.pairwise_singleton _ _, ?_⟩
      intro a ha b hb
      rw [List.mem_singleton.mp hb]
      have := List.any_eq_true.not.mp hg
      push_neg at this
      have h2 := this a ha
      simp only [ne_eq, decide_eq_true_eq] at h2
      unfold shapeNe
      dsimp only
      omega

/-- Elements produced by `contLoop` either were already among the new
rectangles or start at the closed rectangle's left. -/
theorem contLoop_mem (fullActive : List UnfinishedRect) (lft rtop rbot : Int) :
    ∀ (gs : List Gap) (na : List UnfinishedRect),
      ∀ a ∈ contLoop fullActive lft rtop rbot gs na, a ∈ na ∨ a.left = lft := by
  intro gs
  induction gs with
  | nil => intro na a ha; exact Or.inl ha
  | cons g rest ih =>
    intro na a ha
    unfold contLoop at ha
    by_cases h1 : (decide (g.top ≤ rtop ∨ rbot ≤ g.bottom)) = true
    · rw [if_pos h1] at ha
      by_cases h2 : ((fullActive ++ na).any fun r =>
          decide (min rtop g.top = r.top ∧ max rbot g.bottom = r.bottom)) = true
      · rw [if_pos h2] at ha
        exact ih na a ha
      · rw [if_neg h2] at ha
        rcases ih _ a ha with h3 | h3
        · rcases List.mem_append.mp h3 with h4 | h4
          · exact Or.inl h4
          · right
            rw [List.mem_singleton.mp h4]
        · exact Or.inr h3
    · rw [if_neg h1] at ha
      exact ih na a ha

/-- `contLoop` preserves shape uniqueness of the new list together with
shape disjointness from the full old active list (both are what the
uniqueness guard checks). -/
theorem contLoop_shapes (fullActive : List UnfinishedRect) (lft rtop rbot : Int) :
    ∀ (gs : List Gap) (na : List UnfinishedRect),
      shapesUnique na → (∀ a ∈ na, ∀ b ∈ fullActive, shapeNe a b) →
      shapesUnique (contLoop fullActive lft rtop rbot gs na) ∧
        ∀ a ∈ contLoop fullActive lft rtop rbot gs na, ∀ b ∈ fullActive,
          shapeNe a b := by
  intro gs
  induction gs with
  | nil => intro na h1 h2; exact ⟨h1, h2⟩
  | cons g rest ih =>
    intro na h1 h2
    unfold contLoop
    by_cases hg : (decide (g.top ≤ rtop ∨ rbot ≤ g.bottom)) = true
    · rw [if_pos hg]
      by_cases hu : ((fullActive ++ na).any fun r =>
          decide (min rtop g.top = r.top ∧ max rbot g.bottom = r.bottom)) = true
      · rw [if_pos hu]
        exact ih na h1 h2
      · rw [if_neg hu]
        have hall := List.any_eq_true.not.mp hu
        push_neg at hall
        refine ih _ ?_ ?_
        · unfold shapesUnique
          rw [List.pairwise_append]
          refine ⟨h1, List.pairwise_singleton _ _, ?_⟩
          intro a ha b hb
          rw [List.mem_singleton.mp hb]
          have h3 := hall a (List.mem_append.mpr (Or.inr ha))
          simp only [ne_eq, decide_eq_true_eq] at h3
          unfold shapeNe
          dsimp only
          omega
        · intro a ha b hb
          rcases List.mem_append.mp ha with h3 | h3
          · exact h2 a h3 b hb
          · rw [List.mem_singleton.mp h3]
            have h4 := hall b (List.mem_append.mpr (Or.inl hb))
            simp only [ne_eq, decide_eq_true_eq] at h4
            unfold shapeNe
            dsimp only
            omega
    · rw [if_neg hg]
      exact ih na h1 h2

/-- The kept part of `closeStep` is a sublist of the walked list. -/
theorem closeStep_kept_sublist (x : Int) (gaps : List Gap)
    (fullActive : List UnfinishedRect) :
    ∀ (rest na : List UnfinishedRect) (out : List Rect),
      (closeStep x gaps fullActive rest na out).1.Sublist rest := by
  intro rest
  induction rest with
  | nil => intro na out; exact List.Sublist.refl _
  | cons r rest ih =>
    intro na out
    unfold closeStep
    by_cases hg : (gaps.any fun g =>
        decide (g.top ≥ r.top ∧ r.bottom ≥ g.bottom)) = true
    · rw [if_pos hg]
      exact (ih na out).cons₂ r
    · rw [if_neg hg]
      exact (ih _ _).cons r

/-- The new actives of `closeStep` keep shape uniqueness and shape
disjointness from the full old active list. -/
theorem closeStep_na_shapes (x : Int) (gaps : List Gap)
    (fullActive : List UnfinishedRect) :
    ∀ (rest na : List UnfinishedRect) (out : List Rect),
      shapesUnique na → (∀ a ∈ na, ∀ b ∈ fullActive, shapeNe a b) →
      shapesUnique (closeStep x gaps fullActive rest na out).2.1 ∧
        ∀ a ∈ (closeStep x gaps fullActive rest na out).2.1,
          ∀ b ∈ fullActive, shapeNe a b := by
  intro rest
  induction rest with
  | nil => intro na out h1 h2; exact ⟨h1, h2⟩
  | cons r rest ih =>
    intro na out h1 h2
    unfold closeStep
    by_cases hg : (gaps.any fun g =>
        decide (g.top ≥ r.top ∧ r.bottom ≥ g.bottom)) = true
    · rw [if_pos hg]
      exact ih na out h1 h2
    · rw [if_neg hg]
      obtain ⟨h3, h4⟩ :=
        contLoop_shapes fullActive r.left r.top r.bottom gaps na h1 h2
      exact ih _ _ h3 h4

/-- Every new active of `closeStep` either was among the incoming new
actives or inherits the left edge of a walked rectangle. -/
theorem closeStep_na_mem (x : Int) (gaps : List Gap)
    (fullActive : List UnfinishedRect) :
    ∀ (rest na : List UnfinishedRect) (out : List Rect),
      ∀ a ∈ (closeStep x gaps fullActive rest na out).2.1,
        a ∈ na ∨ ∃ r ∈ rest, a.left = r.left := by
  intro rest
  induction rest with
  | nil => intro na out a ha; exact Or.inl ha
  | cons r rest ih =>
    intro na out a ha
    unfold closeStep at ha
    by_cases hg : (gaps.any fun g =>
        decide (g.top ≥ r.top ∧ r.bottom ≥ g.bottom)) = true
    · rw [if_pos hg] at ha
      rcases ih na out a ha with h1 | ⟨r', hr', h2⟩
      · exact Or.inl h1
      · exact Or.inr ⟨r', List.mem_cons_of_mem r hr', h2⟩
    · rw [if_neg hg] at ha
      rcases ih _ _ a ha with h1 | ⟨r', hr', h2⟩
      · rcases contLoop_mem fullActive r.left r.top r.bottom gaps na a h1 with
          h3 | h3
        · exact Or.inl h3
        · exact Or.inr ⟨r, List.mem_cons_self r rest, h3⟩
      · exact Or.inr ⟨r', List.mem_cons_of_mem r hr', h2⟩

/-- The outputs of `closeStep` are the incoming outputs followed by the
emitted rectangles: each emitted rectangle has right edge `x - 1` and
inherits left, top and bottom from a distinct walked rectangle; when the
walked list is shape unique, the emitted rectangles are pairwise shape
distinct. -/
theorem closeStep_out_eq (x : Int) (gaps : List Gap)
    (fullActive : List UnfinishedRect) :
    ∀ (rest na : List UnfinishedRect) (out : List Rect),
      ∃ emits,
        (closeStep x gaps fullActive rest na out).2.2 = out ++ emits ∧
        (∀ e ∈ emits, e.right = x - 1 ∧
          ∃ r ∈ rest, e.left = r.left ∧ e.top = r.top ∧ e.bottom = r.bottom) ∧
        (shapesUnique rest →
          emits.Pairwise fun p q => p.top ≠ q.top ∨ p.bottom ≠ q.bottom) := by
  intro rest
  induction rest with
  | nil =>
    intro na out
    exact ⟨[], by simp [closeStep], by simp, by simp⟩
  | cons r rest ih =>
    intro na out
    unfold closeStep
    by_cases hg : (gaps.any fun g =>
        decide (g.top ≥ r.top ∧ r.bottom ≥ g.bottom)) = true
    · rw [if_pos hg]
      obtain ⟨emits, he1, he2, he3⟩ := ih na out
      refine ⟨emits, he1, ?_, ?_⟩
      · intro e he
        obtain ⟨hr, r', hr', hp⟩ := he2 e he
        exact ⟨hr, r', List.mem_cons_of_mem r hr', hp⟩
      · intro hu
        exact he3 (List.Pairwise.sublist (List.sublist_cons_self r rest) hu)
    · rw [if_neg hg]
      obtain ⟨emits, he1, he2, he3⟩ :=
        ih (contLoop fullActive r.left r.top r.bottom gaps na)
          (out ++ [⟨r.left, x - 1, r.top, r.bottom⟩])
      refine ⟨⟨r.left, x - 1, r.top, r.bottom⟩ :: emits, ?_, ?_, ?_⟩
      · rw [he1, List.append_assoc]
        rfl
      · intro e he
        rcases List.mem_cons.mp he with h1 | h1
        · subst h1
          exact ⟨rfl, r, List.mem_cons_self r rest, rfl, rfl, rfl⟩
        · obtain ⟨hr, r', hr', hp⟩ := he2 e h1
          exact ⟨hr, r', List.mem_cons_of_mem r hr', hp⟩
      · intro hu
        have hu' : shapesUnique rest :=
          List.Pairwise.sublist (List.sublist_cons_self r rest) hu
        refine List.Pairwise.cons ?_ (he3 hu')
        intro q hq
        obtain ⟨_, r', hr', hl', ht', hb'⟩ := he2 q hq
        have hne := (List.pairwise_cons.mp hu).1 r' hr'
        unfold shapeNe at hne
        dsimp only
        omega

/-- Elements of `insertLine` are the inserted line or old elements. -/
theorem insertLine_mem (r : Line) :
    ∀ l : List Line, ∀ b ∈ insertLine r l, b = r ∨ b ∈ l := by
  intro l
  induction l with
  | nil =>
    intro b hb
    exact Or.inl (List.mem_singleton.mp hb)
  | cons a rest ih =>
    intro b hb
    unfold insertLine at hb
    by_cases h : a.x < r.x
    · rw [if_pos h] at hb
      rcases List.mem_cons.mp hb with h1 | h1
      · exact Or.inr (h1 ▸ List.mem_cons_self a rest)
      · rcases ih b h1 with h2 | h2
        · exact Or.inl h2
        · exact Or.inr (List.mem_cons_of_mem a h2)
    · rw [if_neg h] at hb
      rcases List.mem_cons.mp hb with h1 | h1
      · exact Or.inl h1
      · exact Or.inr h1

/-- `insertLine` preserves sortedness by `x`. -/
theorem insertLine_pairwise (r : Line) :
    ∀ l : List Line, l.Pairwise (fun a b => a.x ≤ b.x) →
      (insertLine r l).Pairwise (fun a b => a.x ≤ b.x) := by
  intro l
  induction l with
  | nil => intro _; exact List.pairwise_singleton _ _
  | cons a rest ih =>
    intro h
    obtain ⟨ha, hrest⟩ := List.pairwise_cons.mp h
    unfold insertLine
    by_cases hx : a.x < r.x
    · rw [if_pos hx]
      refine List.pairwise_cons.mpr ⟨?_, ih hrest⟩
      intro b hb
      rcases insertLine_mem r rest b hb with h1 | h1
      · rw [h1]; omega
      · exact ha b h1
    · rw [if_neg hx]
      refine List.pairwise_cons.mpr ⟨?_, h⟩
      intro b hb
      rcases List.mem_cons.mp hb with h1 | h1
      · rw [h1]; omega
      · have := ha b h1
        omega

/-- `sortLines` sorts by ascending `x`. -/
theorem sortLines_pairwise :
    ∀ l : List Line, (sortLines l).Pairwise (fun a b => a.x ≤ b.x) := by
  intro l
  induction l with
  | nil => exact List.Pairwise.nil
  | cons a rest ih => exact insertLine_pairwise a (sortLines rest) ih

/-- On a sorted tail whose elements are all at or after `prev`, `dedupLoop`
returns a strictly increasing list of elements strictly after `prev`. -/
theorem dedupLoop_sorted :
    ∀ (l : List Line) (prev : Line),
      (∀ b ∈ l, prev.x ≤ b.x) → l.Pairwise (fun a b => a.x ≤ b.x) →
      (∀ b ∈ dedupLoop prev l, prev.x < b.x) ∧
        (dedupLoop prev l).Pairwise (fun a b => a.x < b.x) := by
  intro l
  induction l with
  | nil =>
    intro prev _ _
    exact ⟨fun b hb => absurd hb (List.not_mem_nil b), List.Pairwise.nil⟩
  | cons b rest ih =>
    intro prev hge hp
    obtain ⟨hb, hrest⟩ := List.pairwise_cons.mp hp
    unfold dedupLoop
    by_cases h : b.x = prev.x
    · rw [if_pos h]
      refine ih prev ?_ hrest
      intro c hc
      have := hb c hc
      omega
    · rw [if_neg h]
      have hlt : prev.x < b.x := by
        have := hge b (List.mem_cons_self b rest)
        omega
      obtain ⟨ih1, ih2⟩ := ih b hb hrest
      refine ⟨?_, ?_⟩
      · intro c hc
        rcases List.mem_cons.mp hc with h1 | h1
        · rw [h1]; exact hlt
        · have := ih1 c h1
          omega
      · exact List.pairwise_cons.mpr ⟨ih1, ih2⟩

/-- Deduplication of a sorted line list is strictly increasing in `x`. -/
theorem dedupByX_sorted :
    ∀ l : List Line, l.Pairwise (fun a b => a.x ≤ b.x) →
      (dedupByX l).Pairwise (fun a b => a.x < b.x) := by
  intro l h
  cases l with
  | nil => exact List.Pairwise.nil
  | cons a rest =>
    obtain ⟨ha, hrest⟩ := List.pairwise_cons.mp h
    obtain ⟨h1, h2⟩ := dedupLoop_sorted rest a ha hrest
    exact List.pairwise_cons.mpr ⟨h1, h2⟩

/-- The event lines of the sweep are strictly increasing in `x`. -/
theorem sweepLines_sorted (parent : Rect) (obs : List Rect) :
    (sweepLines parent obs).Pairwise (fun a b => a.x < b.x) := by
  unfold sweepLines
  exact List.Pairwise.filter _
    (dedupByX_sorted _ (sortLines_pairwise (buildLines parent obs)))

/-- Every event line of the sweep lies within the region's x-range. -/
theorem sweepLines_mem_bounds (parent : Rect) (obs : List Rect) :
    ∀ l ∈ sweepLines parent obs, parent.left ≤ l.x ∧ l.x ≤ parent.right := by
  intro l hl
  have := List.of_mem_filter hl
  simpa using this

/-- One sweep step preserves shape uniqueness of the active list. -/
theorem lineStep_shapesUnique (parent : Rect) (obs : List Rect)
    (st : List UnfinishedRect × List Rect) (line : Line)
    (h : shapesUnique st.1) : shapesUnique (lineStep parent obs st line).1 := by
  unfold lineStep
  by_cases ho : line.opens = true
  · rw [if_pos ho]
    exact openLoop_shapesUnique line.x _ _ (shapesUnique_sortActive h)
  · rw [if_neg ho]
    unfold closeResult
    have hA : shapesUnique (sortActive st.1) := shapesUnique_sortActive h
    have hkept := closeStep_kept_sublist line.x
      (computeGaps parent obs line.x) (sortActive st.1) (sortActive st.1) [] st.2
    obtain ⟨hna1, hna2⟩ := closeStep_na_shapes line.x
      (computeGaps parent obs line.x) (sortActive st.1) (sortActive st.1) [] st.2
      List.Pairwise.nil (by intro a ha; cases ha)
    unfold shapesUnique
    rw [List.pairwise_append]
    refine ⟨List.Pairwise.sublist hkept hA, hna1, ?_⟩
    intro a ha b hb
    exact shapeNe_symmetric (hna2 b hb a (hkept.subset ha))

/-- After one sweep step, every active rectangle inherits a left edge from
the previous active list or starts at the processed line. -/
theorem lineStep_active_mem (parent : Rect) (obs : List Rect)
    (st : List UnfinishedRect × List Rect) (line : Line) :
    ∀ a ∈ (lineStep parent obs st line).1,
      (∃ r ∈ st.1, a.left = r.left) ∨ a.left = line.x := by
  intro a ha
  unfold lineStep at ha
  by_cases ho : line.opens = true
  · rw [if_pos ho] at ha
    rcases openLoop_mem line.x _ _ a ha with h1 | h1
    · exact Or.inl ⟨a, (sortActive_perm st.1).mem_iff.mp h1, rfl⟩
    · exact Or.inr h1
  · rw [if_neg ho] at ha
    unfold closeResult at ha
    rcases List.mem_append.mp ha with h1 | h1
    · have := (closeStep_kept_sublist line.x
        (computeGaps parent obs line.x) (sortActive st.1)
        (sortActive st.1) [] st.2).subset h1
      exact Or.inl ⟨a, (sortActive_perm st.1).mem_iff.mp this, rfl⟩
    · rcases closeStep_na_mem line.x (computeGaps parent obs line.x)
        (sortActive st.1) (sortActive st.1) [] st.2 a h1 with h2 | ⟨r, hr, h2⟩
      · cases h2
      · exact Or.inl ⟨r, (sortActive_perm st.1).mem_iff.mp hr, h2⟩

/-- One sweep step appends to the outputs a block of rectangles closed at
`line.x - 1`, with left/top/bottom taken from previously active
rectangles and pairwise distinct shapes when the active list was shape
unique. -/
theorem lineStep_out_eq (parent : Rect) (obs : List Rect)
    (st : List UnfinishedRect × List Rect) (line : Line) :
    ∃ emits,
      (lineStep parent obs st line).2 = st.2 ++ emits ∧
      (∀ e ∈ emits, e.right = line.x - 1 ∧
        ∃ r ∈ st.1, e.left = r.left ∧ e.top = r.top ∧ e.bottom = r.bottom) ∧
      (shapesUnique st.1 →
        emits.Pairwise fun p q => p.top ≠ q.top ∨ p.bottom ≠ q.bottom) := by
  unfold lineStep
  by_cases ho : line.opens = true
  · rw [if_pos ho]
    exact ⟨[], by simp, by simp, by simp⟩
  · rw [if_neg ho]
    unfold closeResult
    obtain ⟨emits, he1, he2, he3⟩ := closeStep_out_eq line.x
      (computeGaps parent obs line.x) (sortActive st.1) (sortActive st.1) []
      st.2
    refine ⟨emits, he1, ?_, ?_⟩
    · intro e he
      obtain ⟨hr, r, hrm, hp⟩ := he2 e he
      exact ⟨hr, r, (sortActive_perm st.1).mem_iff.mp hrm, hp⟩
    · intro hu
      exact he3 (shapesUnique_sortActive hu)

/-- The sweep preserves shape uniqueness of the active list from any
starting state, over any line list. -/
theorem foldl_shapesUnique (parent : Rect) (obs : List Rect) :
    ∀ (lines : List Line) (st : List UnfinishedRect × List Rect),
      shapesUnique st.1 →
      shapesUnique ((lines.foldl (lineStep parent obs) st).1) := by
  intro lines
  induction lines with
  | nil => intro st h; exact h
  | cons l rest ih =>
    intro st h
    exact ih _ (lineStep_shapesUnique parent obs st l h)

/-- The sweep keeps every active left edge and every output's x-extent
within bounds, provided every processed line is within bounds. -/
theorem foldl_bounds (parent : Rect) (obs : List Rect) :
    ∀ (lines : List Line) (st : List UnfinishedRect × List Rect),
      (∀ l ∈ lines, parent.left ≤ l.x ∧ l.x ≤ parent.right) →
      (∀ a ∈ st.1, parent.left ≤ a.left) →
      (∀ q ∈ st.2, parent.left ≤ q.left ∧ q.right ≤ parent.right) →
      (∀ a ∈ (lines.foldl (lineStep parent obs) st).1, parent.left ≤ a.left) ∧
        (∀ q ∈ (lines.foldl (lineStep parent obs) st).2,
          parent.left ≤ q.left ∧ q.right ≤ parent.right) := by
  intro lines
  induction lines with
  | nil => intro st _ h1 h2; exact ⟨h1, h2⟩
  | cons l rest ih =>
    intro st hb h1 h2
    obtain ⟨hbl, hbr⟩ := hb l (List.mem_cons_self l rest)
    refine ih _ (fun l' hl' => hb l' (List.mem_cons_of_mem l hl')) ?_ ?_
    · intro a ha
      rcases lineStep_active_mem parent obs st l a ha with ⟨r, hr, he⟩ | he
      · rw [he]; exact h1 r hr
      · rw [he]; exact hbl
    · obtain ⟨emits, he1, he2, _⟩ := lineStep_out_eq parent obs st l
      rw [he1]
      intro q hq
      rcases List.mem_append.mp hq with h3 | h3
      · exact h2 q h3
      · obtain ⟨hqr, r, hrm, hql, _, _⟩ := he2 q h3
        constructor
        · rw [hql]; exact h1 r hrm
        · omega

/-- The sweep keeps the output list pairwise distinct: outputs closed at
different lines have different right edges, outputs closed at one line
have different shapes.  `lb` bounds the next line from below. -/
theorem foldl_distinct (parent : Rect) (obs : List Rect) :
    ∀ (lines : List Line) (st : List UnfinishedRect × List Rect) (lb : Int),
      lines.Pairwise (fun a b => a.x < b.x) →
      (∀ l ∈ lines, lb ≤ l.x ∧ l.x ≤ parent.right) →
      shapesUnique st.1 →
      st.2.Pairwise (fun a b => a ≠ b) →
      (∀ q ∈ st.2, q.right + 1 < lb ∧ q.right < parent.right) →
      shapesUnique ((lines.foldl (lineStep parent obs) st).1) ∧
        ((lines.foldl (lineStep parent obs) st).2.Pairwise fun a b => a ≠ b) ∧
        (∀ q ∈ (lines.foldl (lineStep parent obs) st).2,
          q.right < parent.right) := by
  intro lines
  induction lines with
  | nil =>
    intro st lb _ _ h1 h2 h3
    exact ⟨h1, h2, fun q hq => (h3 q hq).2⟩
  | cons l rest ih =>
    intro st lb hsort hb h1 h2 h3
    obtain ⟨hhead, hrest⟩ := List.pairwise_cons.mp hsort
    obtain ⟨hbl, hbr⟩ := hb l (List.mem_cons_self l rest)
    obtain ⟨emits, he1, he2, he3⟩ := lineStep_out_eq parent obs st l
    refine ih _ (l.x + 1) hrest ?_ ?_ ?_ ?_
    · intro l' hl'
      have := hhead l' hl'
      have := (hb l' (List.mem_cons_of_mem l hl')).2
      omega
    · exact lineStep_shapesUnique parent obs st l h1
    · rw [he1]
      rw [List.pairwise_append]
      refine ⟨h2, ?_, ?_⟩
      · refine (he3 h1).imp ?_
        intro p q hpq hne
        rw [hne] at hpq
        omega
      · intro p hp q hq heq
        have hp3 := h3 p hp
        have hq2 := (he2 q hq).1
        rw [heq] at hp3
        omega
    · rw [he1]
      intro q hq
      rcases List.mem_append.mp hq with h4 | h4
      · have := h3 q h4
        omega
      · have := (he2 q h4).1
        omega

/-! ## Coverage semantics

The point `(x, y)` is free when no obstruction covers it; the decomposition
is supposed to tile exactly the free part of the region.  The lemmas below
establish that the shingle scan (`gapScan` / `computeGaps`) computes
exactly the free vertical intervals at a line. -/

/-- No obstruction of `obs` covers the point `(x, y)`. -/
def freeAt (obs : List Rect) (x y : Int) : Prop :=
  ∀ o ∈ obs, ¬(o.left ≤ x ∧ x ≤ o.right ∧ o.bottom ≤ y ∧ y ≤ o.top)

instance (obs : List Rect) (x y : Int) : Decidable (freeAt obs x y) := by
  unfold freeAt; infer_instance

/-- Freeness at `(x, y)` is freeness from the obstructions covering `x`. -/
theorem freeAt_iff_covering (obs : List Rect) (x y : Int) :
    freeAt obs x y ↔ ∀ o ∈ covering obs x, ¬(o.bottom ≤ y ∧ y ≤ o.top) := by
  unfold freeAt covering
  constructor
  · intro h o ho
    have hm := List.of_mem_filter ho
    simp only [decide_eq_true_eq] at hm
    have := h o (List.mem_of_mem_filter ho)
    tauto
  · intro h o ho hc
    have : o ∈ List.filter (fun o => decide (o.left ≤ x ∧ x ≤ o.right)) obs :=
      List.mem_filter.mpr ⟨ho, by simp only [decide_eq_true_eq]; exact ⟨hc.1, hc.2.1⟩⟩
    exact h o this ⟨hc.2.2.1, hc.2.2.2⟩

/-- The scan cursor never rises, and ends below every scanned
obstruction's bottom. -/
theorem gapScan_cursor (C : List Rect) :
    ∀ c, (gapScan c C).2 ≤ c ∧ ∀ o ∈ C, (gapScan c C).2 ≤ o.bottom - 1 := by
  induction C with
  | nil => intro c; exact ⟨le_refl c, fun o ho => absurd ho (List.not_mem_nil o)⟩
  | cons o os ih =>
    intro c
    have hrec := ih (min c (o.bottom - 1))
    have h2 : (gapScan c (o :: os)).2 = (gapScan (min c (o.bottom - 1)) os).2 := by
      by_cases h : c > o.top
      · simp only [gapScan, if_pos h]
      · simp only [gapScan, if_neg h]
    rw [h2]
    refine ⟨by omega, ?_⟩
    intro o' ho'
    rcases List.mem_cons.mp ho' with h1 | h1
    · subst h1; omega
    · exact hrec.2 o' h1

/-- Every scanned gap's top is at most the entry cursor. -/
theorem gapScan_top_le (C : List Rect) :
    ∀ c, ∀ g ∈ (gapScan c C).1, g.top ≤ c := by
  induction C with
  | nil => intro c g hg; simp [gapScan] at hg
  | cons o os ih =>
    intro c g hg
    unfold gapScan at hg
    by_cases h : c > o.top
    · rw [if_pos h] at hg
      rcases List.mem_cons.mp hg with h1 | h1
      · rw [h1]
      · have := ih (min c (o.bottom - 1)) g h1
        omega
    · rw [if_neg h] at hg
      have := ih (min c (o.bottom - 1)) g hg
      omega

/-- Every scanned gap's bottom is `o.top + 1` for a scanned obstruction. -/
theorem gapScan_bottom_src (C : List Rect) :
    ∀ c, ∀ g ∈ (gapScan c C).1, ∃ o ∈ C, g.bottom = o.top + 1 := by
  induction C with
  | nil => intro c g hg; simp [gapScan] at hg
  | cons o os ih =>
    intro c g hg
    unfold gapScan at hg
    by_cases h : c > o.top
    · rw [if_pos h] at hg
      rcases List.mem_cons.mp hg with h1 | h1
      · exact ⟨o, List.mem_cons_self o os, by rw [h1]⟩
      · obtain ⟨o', ho', he⟩ := ih (min c (o.bottom - 1)) g h1
        exact ⟨o', List.mem_cons_of_mem o ho', he⟩
    · rw [if_neg h] at hg
      obtain ⟨o', ho', he⟩ := ih (min c (o.bottom - 1)) g hg
      exact ⟨o', List.mem_cons_of_mem o ho', he⟩

/-- Soundness of the scan on a top-descending obstruction list: every point
inside a recorded gap is at or below the entry cursor and covered by no
scanned obstruction. -/
theorem gapScan_sound (C : List Rect)
    (hs : C.Pairwise fun a b => b.top ≤ a.top) :
    ∀ c, ∀ g ∈ (gapScan c C).1, ∀ y, g.bottom ≤ y → y ≤ g.top →
      y ≤ c ∧ ∀ o ∈ C, ¬(o.bottom ≤ y ∧ y ≤ o.top) := by
  induction C with
  | nil => intro c g hg; simp [gapScan] at hg
  | cons o os ih =>
    obtain ⟨hhead, htail⟩ := List.pairwise_cons.mp hs
    intro c g hg y hy1 hy2
    unfold gapScan at hg
    by_cases h : c > o.top
    · rw [if_pos h] at hg
      rcases List.mem_cons.mp hg with h1 | h1
      · subst h1
        simp only [] at hy1 hy2
        refine ⟨hy2, ?_⟩
        intro o' ho'
        rcases List.mem_cons.mp ho' with h2 | h2
        · subst h2; omega
        · have := hhead o' h2
          omega
      · obtain ⟨hc, hfree⟩ := ih htail (min c (o.bottom - 1)) g h1 y hy1 hy2
        refine ⟨by omega, ?_⟩
        intro o' ho'
        rcases List.mem_cons.mp ho' with h2 | h2
        · subst h2; omega
        · exact hfree o' h2
    · rw [if_neg h] at hg
      obtain ⟨hc, hfree⟩ := ih htail (min c (o.bottom - 1)) g hg y hy1 hy2
      refine ⟨by omega, ?_⟩
      intro o' ho'
      rcases List.mem_cons.mp ho' with h2 | h2
      · subst h2; omega
      · exact hfree o' h2

/-- Completeness of the scan: a point at or below the cursor and covered by
no scanned obstruction ends below the final cursor or inside a recorded
gap. -/
theorem gapScan_complete (C : List Rect) :
    ∀ c y, y ≤ c → (∀ o ∈ C, ¬(o.bottom ≤ y ∧ y ≤ o.top)) →
      y ≤ (gapScan c C).2 ∨
        ∃ g ∈ (gapScan c C).1, g.bottom ≤ y ∧ y ≤ g.top := by
  induction C with
  | nil => intro c y hy _; exact Or.inl hy
  | cons o os ih =>
    intro c y hy hfree
    have ho := hfree o (List.mem_cons_self o os)
    have htail : ∀ o' ∈ os, ¬(o'.bottom ≤ y ∧ y ≤ o'.top) :=
      fun o' ho' => hfree o' (List.mem_cons_of_mem o ho')
    unfold gapScan
    by_cases h : c > o.top
    · rw [if_pos h]
      by_cases hyo : y > o.top
      · refine Or.inr ⟨⟨c, o.top + 1⟩, List.mem_cons_self _ _, ?_, ?_⟩
        · show o.top + 1 ≤ y; omega
        · show y ≤ c; omega
      · have hy' : y ≤ min c (o.bottom - 1) := by omega
        rcases ih (min c (o.bottom - 1)) y hy' htail with h1 | ⟨g, hg, hgy⟩
        · exact Or.inl h1
        · exact Or.inr ⟨g, List.mem_cons_of_mem _ hg, hgy⟩
    · rw [if_neg h]
      have hy' : y ≤ min c (o.bottom - 1) := by omega
      exact ih (min c (o.bottom - 1)) y hy' htail

/-- On valid obstructions the scanned gaps are strictly separated (a
covered point lies between consecutive gaps) and lie strictly above the
final cursor. -/
theorem gapScan_sep (C : List Rect) (hv : ∀ o ∈ C, o.bottom ≤ o.top) :
    ∀ c, (gapScan c C).1.Pairwise (fun g h => h.top < g.bottom - 1) ∧
      ∀ g ∈ (gapScan c C).1, (gapScan c C).2 < g.bottom - 1 := by
  induction C with
  | nil =>
    intro c
    exact ⟨List.Pairwise.nil, fun g hg => absurd hg (by simp [gapScan])⟩
  | cons o os ih =>
    intro c
    have hvo : o.bottom ≤ o.top := hv o (List.mem_cons_self o os)
    have hvt : ∀ o' ∈ os, o'.bottom ≤ o'.top :=
      fun o' ho' => hv o' (List.mem_cons_of_mem o ho')
    have ihr := (fun hvt' => ih hvt') hvt (min c (o.bottom - 1))
    have hcur := gapScan_cursor os (min c (o.bottom - 1))
    unfold gapScan
    by_cases h : c > o.top
    · rw [if_pos h]
      constructor
      · refine List.pairwise_cons.mpr ⟨?_, ihr.1⟩
        intro g hg
        have := gapScan_top_le os (min c (o.bottom - 1)) g hg
        simp only []
        omega
      · intro g hg
        rcases List.mem_cons.mp hg with h1 | h1
        · subst h1
          simp only []
          omega
        · exact ihr.2 g h1
    · rw [if_neg h]
      exact ihr

/-- Soundness of `computeGaps`: points inside gaps are free at the line and
below the region's top. -/
theorem computeGaps_sound (parent : Rect) (obs : List Rect) (x : Int)
    (hs : (covering obs x).Pairwise fun a b => b.top ≤ a.top) :
    ∀ g ∈ computeGaps parent obs x, ∀ y, g.bottom ≤ y → y ≤ g.top →
      y ≤ parent.top ∧ freeAt obs x y := by
  intro g hg y hy1 hy2
  rw [freeAt_iff_covering]
  unfold computeGaps at hg
  by_cases h : (gapScan parent.top (covering obs x)).2 ≥ parent.bottom
  · rw [if_pos h] at hg
    rcases List.mem_append.mp hg with h1 | h1
    · obtain ⟨hc, hfree⟩ :=
        gapScan_sound (covering obs x) hs parent.top g h1 y hy1 hy2
      exact ⟨hc, hfree⟩
    · rw [List.mem_singleton.mp h1] at hy1 hy2
      simp only [] at hy1 hy2
      have hcur := gapScan_cursor (covering obs x) parent.top
      refine ⟨by omega, ?_⟩
      intro o ho
      have := hcur.2 o ho
      omega
  · rw [if_neg h] at hg
    obtain ⟨hc, hfree⟩ :=
      gapScan_sound (covering obs x) hs parent.top g hg y hy1 hy2
    exact ⟨hc, hfree⟩

/-- Gap bottoms stay at or above the region bottom when every covering
obstruction does. -/
theorem computeGaps_in_region (parent : Rect) (obs : List Rect) (x : Int)
    (hv : ∀ o ∈ covering obs x, o.bottom ≤ o.top)
    (hcont : ∀ o ∈ covering obs x, parent.bottom ≤ o.bottom) :
    ∀ g ∈ computeGaps parent obs x, parent.bottom ≤ g.bottom := by
  intro g hg
  unfold computeGaps at hg
  by_cases h : (gapScan parent.top (covering obs x)).2 ≥ parent.bottom
  · rw [if_pos h] at hg
    rcases List.mem_append.mp hg with h1 | h1
    · obtain ⟨o, ho, he⟩ := gapScan_bottom_src (covering obs x) parent.top g h1
      have := hv o ho
      have := hcont o ho
      omega
    · rw [List.mem_singleton.mp h1]
  · rw [if_neg h] at hg
    obtain ⟨o, ho, he⟩ := gapScan_bottom_src (covering obs x) parent.top g hg
    have := hv o ho
    have := hcont o ho
    omega

/-- Completeness of `computeGaps`: every free point of the region's
vertical extent lies inside a gap. -/
theorem computeGaps_complete (parent : Rect) (obs : List Rect) (x : Int) :
    ∀ y, parent.bottom ≤ y → y ≤ parent.top → freeAt obs x y →
      ∃ g ∈ computeGaps parent obs x, g.bottom ≤ y ∧ y ≤ g.top := by
  intro y hy1 hy2 hfree
  rw [freeAt_iff_covering] at hfree
  have hco : ∀ o ∈ covering obs x, ¬(o.bottom ≤ y ∧ y ≤ o.top) := hfree
  unfold computeGaps
  rcases gapScan_complete (covering obs x) parent.top y hy2 hco with h1 | ⟨g, hg, hgy⟩
  · have hcond : (gapScan parent.top (covering obs x)).2 ≥ parent.bottom := by
      omega
    rw [if_pos hcond]
    refine ⟨⟨(gapScan parent.top (covering obs x)).2, parent.bottom⟩,
      List.mem_append.mpr (Or.inr (List.mem_singleton.mpr rfl)), ?_, ?_⟩
    · show parent.bottom ≤ y; omega
    · show y ≤ (gapScan parent.top (covering obs x)).2; omega
  · by_cases hcond : (gapScan parent.top (covering obs x)).2 ≥ parent.bottom
    · rw [if_pos hcond]
      exact ⟨g, List.mem_append.mpr (Or.inl hg), hgy⟩
    · rw [if_neg hcond]
      exact ⟨g, hg, hgy⟩

/-- The full gap list is strictly separated: between two gaps there is
always a covered point. -/
theorem computeGaps_sep (parent : Rect) (obs : List Rect) (x : Int)
    (hv : ∀ o ∈ covering obs x, o.bottom ≤ o.top) :
    (computeGaps parent obs x).Pairwise fun g h => h.top < g.bottom - 1 := by
  obtain ⟨hsep, hcur⟩ := gapScan_sep (covering obs x) hv parent.top
  unfold computeGaps
  by_cases h : (gapScan parent.top (covering obs x)).2 ≥ parent.bottom
  · rw [if_pos h]
    rw [List.pairwise_append]
    refine ⟨hsep, List.pairwise_singleton _ _, ?_⟩
    intro g hg h' hh'
    rw [List.mem_singleton.mp hh']
    simp only []
    exact hcur g hg
  · rw [if_neg h]
    exact hsep

/-- A nonempty interval contained pointwise in a union of strictly
separated gaps is contained in a single gap. -/
theorem interval_fit (gs : List Gap)
    (hsep : gs.Pairwise fun g h => h.top < g.bottom - 1) (b t : Int)
    (hbt : b ≤ t)
    (hall : ∀ y, b ≤ y → y ≤ t → ∃ g ∈ gs, g.bottom ≤ y ∧ y ≤ g.top) :
    ∃ g ∈ gs, g.bottom ≤ b ∧ t ≤ g.top := by
  obtain ⟨g, hg, hgb, hgt⟩ := hall t hbt (le_refl t)
  refine ⟨g, hg, ?_, hgt⟩
  by_contra hlt
  push_neg at hlt
  obtain ⟨g', hg', hgb', hgt'⟩ := hall (g.bottom - 1) (by omega) (by omega)
  have hne : g' ≠ g := by
    intro he
    rw [he] at hgb'
    omega
  have hsym : Symmetric fun g h : Gap =>
      h.top < g.bottom - 1 ∨ g.top < h.bottom - 1 :=
    fun _ _ hxy => hxy.symm
  have hpair := (hsep.imp fun h => Or.inl h).forall hsym hg' hg hne
  rcases hpair with h1 | h1 <;> omega

/-- `insertObs` builds a permutation of consing. -/
theorem insertObs_perm (r : Rect) :
    ∀ l : List Rect, List.Perm (insertObs r l) (r :: l) := by
  intro l
  induction l with
  | nil => exact List.Perm.refl _
  | cons a rest ih =>
    unfold insertObs
    by_cases h : a.top > r.top
    · rw [if_pos h]
      exact (ih.cons a).trans (List.Perm.swap r a rest)
    · rw [if_neg h]

/-- `sortObs` permutes its input. -/
theorem sortObs_perm : ∀ l : List Rect, List.Perm (sortObs l) l := by
  intro l
  induction l with
  | nil => exact List.Perm.refl _
  | cons a rest ih =>
    unfold sortObs
    exact (insertObs_perm a (sortObs rest)).trans (ih.cons a)

/-- `insertObs` preserves descending sortedness by `top`. -/
theorem insertObs_pairwise (r : Rect) :
    ∀ l : List Rect, l.Pairwise (fun a b => b.top ≤ a.top) →
      (insertObs r l).Pairwise (fun a b => b.top ≤ a.top) := by
  intro l
  induction l with
  | nil => intro _; exact List.pairwise_singleton _ _
  | cons a rest ih =>
    intro h
    obtain ⟨ha, hrest⟩ := List.pairwise_cons.mp h
    unfold insertObs
    by_cases hx : a.top > r.top
    · rw [if_pos hx]
      refine List.pairwise_cons.mpr ⟨?_, ih hrest⟩
      intro b hb
      rcases List.mem_cons.mp ((insertObs_perm r rest).mem_iff.mp hb) with
        h1 | h1
      · subst h1; omega
      · exact ha b h1
    · rw [if_neg hx]
      refine List.pairwise_cons.mpr ⟨?_, h⟩
      intro b hb
      rcases List.mem_cons.mp hb with h1 | h1
      · rw [h1]; omega
      · have := ha b h1
        omega

/-- `sortObs` sorts by descending `top`. -/
theorem sortObs_pairwise :
    ∀ l : List Rect, (sortObs l).Pairwise fun a b => b.top ≤ a.top := by
  intro l
  induction l with
  | nil => exact List.Pairwise.nil
  | cons a rest ih => exact insertObs_pairwise a (sortObs rest) ih

/-- Membership in the covering list. -/
theorem covering_mem {obs : List Rect} {x : Int} {o : Rect}
    (h : o ∈ covering obs x) : o ∈ obs ∧ o.left ≤ x ∧ x ≤ o.right := by
  unfold covering at h
  refine ⟨List.mem_of_mem_filter h, ?_⟩
  have := List.of_mem_filter h
  simpa using this

/-- The covering list inherits descending sortedness. -/
theorem covering_pairwise {obs : List Rect} (x : Int)
    (h : obs.Pairwise fun a b => b.top ≤ a.top) :
    (covering obs x).Pairwise fun a b => b.top ≤ a.top :=
  List.Pairwise.filter _ h

/-- An x-position where the set of free intervals may change. -/
def eventX (parent : Rect) (obs : List Rect) (v : Int) : Prop :=
  v = parent.left ∨ (∃ o ∈ obs, o.left = v) ∨ (∃ o ∈ obs, o.right + 1 = v)

/-- `insertLine` builds a permutation of consing. -/
theorem insertLine_perm (r : Line) :
    ∀ l : List Line, List.Perm (insertLine r l) (r :: l) := by
  intro l
  induction l with
  | nil => exact List.Perm.refl _
  | cons a rest ih =>
    unfold insertLine
    by_cases h : a.x < r.x
    · rw [if_pos h]
      exact (ih.cons a).trans (List.Perm.swap r a rest)
    · rw [if_neg h]

/-- `sortLines` permutes its input. -/
theorem sortLines_perm : ∀ l : List Line, List.Perm (sortLines l) l := by
  intro l
  induction l with
  | nil => exact List.Perm.refl _
  | cons a rest ih =>
    unfold sortLines
    exact (insertLine_perm a (sortLines rest)).trans (ih.cons a)

/-- `dedupLoop` keeps a subset. -/
theorem dedupLoop_subset (prev : Line) :
    ∀ l : List Line, ∀ b ∈ dedupLoop prev l, b ∈ l := by
  intro l
  induction l generalizing prev with
  | nil => intro b hb; exact absurd hb (List.not_mem_nil b)
  | cons a rest ih =>
    intro b hb
    unfold dedupLoop at hb
    by_cases h : a.x = prev.x
    · rw [if_pos h] at hb
      exact List.mem_cons_of_mem a (ih prev b hb)
    · rw [if_neg h] at hb
      rcases List.mem_cons.mp hb with h1 | h1
      · exact h1 ▸ List.mem_cons_self a rest
      · exact List.mem_cons_of_mem a (ih a b h1)

/-- `dedupByX` keeps a subset. -/
theorem dedupByX_subset : ∀ l : List Line, ∀ b ∈ dedupByX l, b ∈ l := by
  intro l b hb
  cases l with
  | nil => exact absurd hb (List.not_mem_nil b)
  | cons a rest =>
    unfold dedupByX at hb
    rcases List.mem_cons.mp hb with h1 | h1
    · exact h1 ▸ List.mem_cons_self a rest
    · exact List.mem_cons_of_mem a (dedupLoop_subset a rest b h1)

/-- `dedupLoop` keeps every x-value not equal to the previous one. -/
theorem dedupLoop_mem_x (v : Int) :
    ∀ (l : List Line) (prev : Line), (∃ b ∈ l, b.x = v) →
      v = prev.x ∨ ∃ b ∈ dedupLoop prev l, b.x = v := by
  intro l
  induction l with
  | nil =>
    intro prev ⟨b, hb, _⟩
    exact absurd hb (List.not_mem_nil b)
  | cons a rest ih =>
    intro prev ⟨b, hb, hv⟩
    unfold dedupLoop
    by_cases h : a.x = prev.x
    · rw [if_pos h]
      rcases List.mem_cons.mp hb with h1 | h1
      · subst h1; rw [← hv, h]; exact Or.inl rfl
      · exact ih prev ⟨b, h1, hv⟩
    · rw [if_neg h]
      rcases List.mem_cons.mp hb with h1 | h1
      · subst h1
        exact Or.inr ⟨b, List.mem_cons_self _ _, hv⟩
      · rcases ih a ⟨b, h1, hv⟩ with h2 | ⟨b', hb', hv'⟩
        · exact Or.inr ⟨a, List.mem_cons_self _ _, h2.symm ▸ rfl⟩
        · exact Or.inr ⟨b', List.mem_cons_of_mem a hb', hv'⟩

/-- `dedupByX` keeps every x-value of its input. -/
theorem dedupByX_mem_x (v : Int) :
    ∀ l : List Line, (∃ b ∈ l, b.x = v) → ∃ b ∈ dedupByX l, b.x = v := by
  intro l hex
  cases l with
  | nil =>
    obtain ⟨b, hb, _⟩ := hex
    exact absurd hb (List.not_mem_nil b)
  | cons a rest =>
    obtain ⟨b, hb, hv⟩ := hex
    unfold dedupByX
    rcases List.mem_cons.mp hb with h1 | h1
    · exact ⟨a, List.mem_cons_self _ _, h1 ▸ hv⟩
    · rcases dedupLoop_mem_x v rest a ⟨b, h1, hv⟩ with h2 | ⟨b', hb', hv'⟩
      · exact ⟨a, List.mem_cons_self _ _, h2.symm⟩
      · exact ⟨b', List.mem_cons_of_mem a hb', hv'⟩

/-- Elements of the per-obstruction fold are obstruction edge lines. -/
theorem foldrLines_src (obs : List Rect) :
    ∀ l ∈ obs.foldr
        (fun o acc => ⟨o.left, false⟩ :: ⟨o.right + 1, true⟩ :: acc)
        ([] : List Line),
      (∃ o ∈ obs, l = ⟨o.left, false⟩) ∨
        ∃ o ∈ obs, l = ⟨o.right + 1, true⟩ := by
  induction obs with
  | nil => intro l hl; exact absurd hl (List.not_mem_nil l)
  | cons o os ih =>
    intro l hl
    simp only [List.foldr_cons] at hl
    rcases List.mem_cons.mp hl with h2 | h2
    · exact Or.inl ⟨o, List.mem_cons_self o os, h2⟩
    · rcases List.mem_cons.mp h2 with h3 | h3
      · exact Or.inr ⟨o, List.mem_cons_self o os, h3⟩
      · rcases ih l h3 with ⟨o', ho', he⟩ | ⟨o', ho', he⟩
        · exact Or.inl ⟨o', List.mem_cons_of_mem o ho', he⟩
        · exact Or.inr ⟨o', List.mem_cons_of_mem o ho', he⟩

/-- The per-obstruction fold contains both edge lines of every
obstruction. -/
theorem foldrLines_covers (obs : List Rect) :
    ∀ o ∈ obs,
      (⟨o.left, false⟩ : Line) ∈ obs.foldr
          (fun o acc => ⟨o.left, false⟩ :: ⟨o.right + 1, true⟩ :: acc)
          ([] : List Line) ∧
        (⟨o.right + 1, true⟩ : Line) ∈ obs.foldr
          (fun o acc => ⟨o.left, false⟩ :: ⟨o.right + 1, true⟩ :: acc)
          ([] : List Line) := by
  induction obs with
  | nil => intro o ho; exact absurd ho (List.not_mem_nil o)
  | cons o' os ih =>
    intro o ho
    simp only [List.foldr_cons]
    rcases List.mem_cons.mp ho with h1 | h1
    · subst h1
      exact ⟨List.mem_cons_self _ _,
        List.mem_cons_of_mem _ (List.mem_cons_self _ _)⟩
    · exact ⟨List.mem_cons_of_mem _ (List.mem_cons_of_mem _ (ih o h1).1),
        List.mem_cons_of_mem _ (List.mem_cons_of_mem _ (ih o h1).2)⟩

/-- The characterization of the built line list. -/
theorem buildLines_mem (parent : Rect) (obs : List Rect) :
    ∀ l ∈ buildLines parent obs,
      l = ⟨parent.left, true⟩ ∨ (∃ o ∈ obs, l = ⟨o.left, false⟩) ∨
        ∃ o ∈ obs, l = ⟨o.right + 1, true⟩ := by
  intro l hl
  unfold buildLines at hl
  rcases List.mem_cons.mp hl with h1 | h1
  · exact Or.inl h1
  · exact Or.inr (foldrLines_src obs l h1)

/-- The built line list contains the region line and both lines of every
obstruction. -/
theorem buildLines_covers (parent : Rect) (obs : List Rect) :
    (⟨parent.left, true⟩ : Line) ∈ buildLines parent obs ∧
      ∀ o ∈ obs, (⟨o.left, false⟩ : Line) ∈ buildLines parent obs ∧
        (⟨o.right + 1, true⟩ : Line) ∈ buildLines parent obs := by
  unfold buildLines
  refine ⟨List.mem_cons_self _ _, ?_⟩
  intro o ho
  exact ⟨List.mem_cons_of_mem _ (foldrLines_covers obs o ho).1,
    List.mem_cons_of_mem _ (foldrLines_covers obs o ho).2⟩

/-- Every sweep line is one of the built lines. -/
theorem sweepLines_mem_buildLines (parent : Rect) (obs : List Rect) :
    ∀ l ∈ sweepLines parent obs, l ∈ buildLines parent obs := by
  intro l hl
  unfold sweepLines at hl
  have h1 := List.mem_of_mem_filter hl
  have h2 := dedupByX_subset _ l h1
  exact (sortLines_perm (buildLines parent obs)).mem_iff.mp h2

/-- Every event position inside the region's x-range appears among the
sweep lines. -/
theorem sweepLines_covers_events (parent : Rect) (obs : List Rect) (v : Int)
    (h1 : parent.left ≤ v) (h2 : v ≤ parent.right)
    (hev : eventX parent obs v) :
    ∃ l ∈ sweepLines parent obs, l.x = v := by
  have hbuild : ∃ b ∈ buildLines parent obs, b.x = v := by
    obtain ⟨hreg, hobs⟩ := buildLines_covers parent obs
    rcases hev with he | ⟨o, ho, he⟩ | ⟨o, ho, he⟩
    · exact ⟨⟨parent.left, true⟩, hreg, he.symm⟩
    · exact ⟨⟨o.left, false⟩, (hobs o ho).1, he⟩
    · exact ⟨⟨o.right + 1, true⟩, (hobs o ho).2, he⟩
  have hsort : ∃ b ∈ sortLines (buildLines parent obs), b.x = v := by
    obtain ⟨b, hb, hv⟩ := hbuild
    exact ⟨b, (sortLines_perm (buildLines parent obs)).mem_iff.mpr hb, hv⟩
  obtain ⟨b, hb, hv⟩ := dedupByX_mem_x v _ hsort
  refine ⟨b, ?_, hv⟩
  unfold sweepLines
  refine List.mem_filter.mpr ⟨hb, ?_⟩
  simp only [decide_eq_true_eq]
  omega

/-- `insertLine` places the inserted line after exactly the strictly
smaller prefix. -/
theorem insertLine_split (r : Line) :
    ∀ l : List Line, ∃ l₁ l₂, insertLine r l = l₁ ++ r :: l₂ ∧
      l = l₁ ++ l₂ ∧ ∀ a ∈ l₁, a.x < r.x := by
  intro l
  induction l with
  | nil =>
    exact ⟨[], [], rfl, rfl, fun a ha => absurd ha (List.not_mem_nil a)⟩
  | cons a rest ih =>
    unfold insertLine
    by_cases h : a.x < r.x
    · rw [if_pos h]
      obtain ⟨l₁, l₂, h1, h2, h3⟩ := ih
      refine ⟨a :: l₁, l₂, by rw [h1]; rfl, by rw [h2]; rfl, ?_⟩
      intro b hb
      rcases List.mem_cons.mp hb with h4 | h4
      · subst h4; exact h
      · exact h3 b h4
    · rw [if_neg h]
      exact ⟨[], a :: rest, rfl, rfl, fun b hb => absurd hb (List.not_mem_nil b)⟩

/-- `dedupLoop` keeps the first element of a run whose x exceeds everything
before it. -/
theorem dedupLoop_keeps (r₀ : Line) :
    ∀ (A B : List Line) (prev : Line), prev.x < r₀.x →
      (∀ a ∈ A, a.x < r₀.x) → r₀ ∈ dedupLoop prev (A ++ r₀ :: B) := by
  intro A
  induction A with
  | nil =>
    intro B prev hprev _
    rw [List.nil_append]
    simp only [dedupLoop]
    rw [if_neg (by omega : ¬ r₀.x = prev.x)]
    exact List.mem_cons_self _ _
  | cons a A' ih =>
    intro B prev hprev hA
    have ha : a.x < r₀.x := hA a (List.mem_cons_self a A')
    have hA' : ∀ b ∈ A', b.x < r₀.x := fun b hb => hA b (List.mem_cons_of_mem a hb)
    rw [List.cons_append]
    simp only [dedupLoop]
    by_cases h : a.x = prev.x
    · rw [if_pos h]
      exact ih B prev hprev hA'
    · rw [if_neg h]
      exact List.mem_cons_of_mem a (ih B a ha hA')

/-- The region's left line, with its opening kind, survives sorting,
deduplication and filtering. -/
theorem sweepLines_left_open (parent : Rect) (obs : List Rect)
    (hp : parent.left ≤ parent.right) :
    (⟨parent.left, true⟩ : Line) ∈ sweepLines parent obs := by
  obtain ⟨l₁, l₂, h1, h2, h3⟩ :=
    insertLine_split (⟨parent.left, true⟩ : Line)
      (sortLines (obs.foldr
        (fun o acc => ⟨o.left, false⟩ :: ⟨o.right + 1, true⟩ :: acc) []))
  have hsort : sortLines (buildLines parent obs) =
      l₁ ++ ⟨parent.left, true⟩ :: l₂ := by
    unfold buildLines sortLines
    exact h1
  have hdedup : (⟨parent.left, true⟩ : Line) ∈
      dedupByX (sortLines (buildLines parent obs)) := by
    rw [hsort]
    cases l₁ with
    | nil =>
      unfold dedupByX
      rw [List.nil_append]
      exact List.mem_cons_self _ _
    | cons c l₁' =>
      have hc : c.x < parent.left := h3 c (List.mem_cons_self c l₁')
      have hl₁' : ∀ a ∈ l₁', a.x < (⟨parent.left, true⟩ : Line).x :=
        fun a ha => h3 a (List.mem_cons_of_mem c ha)
      rw [List.cons_append]
      unfold dedupByX
      exact List.mem_cons_of_mem c (dedupLoop_keeps _ l₁' l₂ c hc hl₁')
  unfold sweepLines
  refine List.mem_filter.mpr ⟨hdedup, ?_⟩
  simp only [decide_eq_true_eq]
  exact ⟨le_refl _, hp⟩

/-- Sweep lines are unique per x-position. -/
theorem sweepLines_x_unique (parent : Rect) (obs : List Rect) :
    ∀ l ∈ sweepLines parent obs, ∀ l' ∈ sweepLines parent obs,
      l.x = l'.x → l = l' := by
  intro l hl l' hl' hx
  by_contra hne
  have hsym : Symmetric fun a b : Line => a.x < b.x ∨ b.x < a.x :=
    fun _ _ hab => hab.symm
  have := ((sweepLines_sorted parent obs).imp
    fun h => (Or.inl h : _ ∨ _)).forall hsym hl hl' hne
  omega

/-- Under the no-adjacency hypothesis, an opening sweep line is the
region's left edge or a position where no obstruction starts, and a
closing sweep line is strictly inside the x-range with no obstruction
ending just before it. -/
theorem sweepLines_kind (parent : Rect) (obs : List Rect)
    (hp : parent.left ≤ parent.right)
    (hadj : ∀ o ∈ obs, ∀ o' ∈ obs, o'.left ≠ o.right + 1) :
    ∀ l ∈ sweepLines parent obs,
      (l.opens = true → l.x = parent.left ∨ ∀ o ∈ obs, o.left ≠ l.x) ∧
        (l.opens = false →
          (∀ o ∈ obs, o.right + 1 ≠ l.x) ∧ parent.left < l.x) := by
  intro l hl
  have hsrc := buildLines_mem parent obs l (sweepLines_mem_buildLines parent obs l hl)
  have hbounds := sweepLines_mem_bounds parent obs l hl
  constructor
  · intro hopen
    rcases hsrc with h1 | ⟨o, ho, h1⟩ | ⟨o, ho, h1⟩
    · rw [h1]; exact Or.inl rfl
    · rw [h1] at hopen; cases hopen
    · right
      intro o' ho' he
      rw [h1] at he
      exact hadj o ho o' ho' (by simpa using he)
  · intro hclose
    rcases hsrc with h1 | ⟨o, ho, h1⟩ | ⟨o, ho, h1⟩
    · rw [h1] at hclose; cases hclose
    · constructor
      · intro o' ho' he
        rw [h1] at he
        exact hadj o' ho' o ho (by simpa using he.symm)
      · rcases lt_or_eq_of_le hbounds.1 with h2 | h2
        · exact h2
        · exfalso
          have hmem := sweepLines_left_open parent obs hp
          have := sweepLines_x_unique parent obs l hl _ hmem (by rw [← h2])
          rw [this] at hclose
          cases hclose
    · constructor
      · intro o' ho' he
        rw [h1] at hclose; cases hclose
      · rw [h1] at hclose; cases hclose

/-- `openLoop` only appends. -/
theorem openLoop_mono (x : Int) :
    ∀ (gs : List Gap) (active : List UnfinishedRect),
      ∀ a ∈ active, a ∈ openLoop x gs active := by
  intro gs
  induction gs with
  | nil => intro active a ha; exact ha
  | cons g rest ih =>
    intro active a ha
    unfold openLoop
    by_cases h : (active.any fun r => decide (g.top = r.top ∧ g.bottom = r.bottom)) = true
    · rw [if_pos h]
      exact ih active a ha
    · rw [if_neg h]
      exact ih _ a (List.mem_append.mpr (Or.inl ha))

/-- Every element produced by `openLoop` is old or is a gap rectangle
started at the line. -/
theorem openLoop_src (x : Int) :
    ∀ (gs : List Gap) (active : List UnfinishedRect),
      ∀ a ∈ openLoop x gs active,
        a ∈ active ∨ ∃ g ∈ gs, a = ⟨x, g.top, g.bottom⟩ := by
  intro gs
  induction gs with
  | nil => intro active a ha; exact Or.inl ha
  | cons g rest ih =>
    intro active a ha
    unfold openLoop at ha
    by_cases h : (active.any fun r => decide (g.top = r.top ∧ g.bottom = r.bottom)) = true
    · rw [if_pos h] at ha
      rcases ih active a ha with h1 | ⟨g', hg', he⟩
      · exact Or.inl h1
      · exact Or.inr ⟨g', List.mem_cons_of_mem g hg', he⟩
    · rw [if_neg h] at ha
      rcases ih _ a ha with h1 | ⟨g', hg', he⟩
      · rcases List.mem_append.mp h1 with h2 | h2
        · exact Or.inl h2
        · exact Or.inr ⟨g, List.mem_cons_self g rest, List.mem_singleton.mp h2⟩
      · exact Or.inr ⟨g', List.mem_cons_of_mem g hg', he⟩

/-- After `openLoop`, every gap's shape is carried by some active
rectangle. -/
theorem openLoop_covers (x : Int) :
    ∀ (gs : List Gap) (active : List UnfinishedRect),
      ∀ g ∈ gs, ∃ a ∈ openLoop x gs active,
        a.top = g.top ∧ a.bottom = g.bottom := by
  intro gs
  induction gs with
  | nil => intro active g hg; exact absurd hg (List.not_mem_nil g)
  | cons g' rest ih =>
    intro active g hg
    unfold openLoop
    by_cases h : (active.any fun r => decide (g'.top = r.top ∧ g'.bottom = r.bottom)) = true
    · rw [if_pos h]
      rcases List.mem_cons.mp hg with h1 | h1
      · obtain ⟨r, hr, hre⟩ := List.any_eq_true.mp h
        simp only [decide_eq_true_eq] at hre
        subst h1
        exact ⟨r, openLoop_mono x rest active r hr, hre.1.symm, hre.2.symm⟩
      · exact ih active g h1
    · rw [if_neg h]
      rcases List.mem_cons.mp hg with h1 | h1
      · subst h1
        exact ⟨⟨x, g.top, g.bottom⟩,
          openLoop_mono x rest _ _
            (List.mem_append.mpr (Or.inr (List.mem_singleton.mpr rfl))),
          rfl, rfl⟩
      · exact ih _ g h1

/-- `contLoop` only appends. -/
theorem contLoop_mono (fullActive : List UnfinishedRect) (lft rtop rbot : Int) :
    ∀ (gs : List Gap) (na : List UnfinishedRect),
      ∀ a ∈ na, a ∈ contLoop fullActive lft rtop rbot gs na := by
  intro gs
  induction gs with
  | nil => intro na a ha; exact ha
  | cons g rest ih =>
    intro na a ha
    unfold contLoop
    by_cases h1 : (decide (g.top ≤ rtop ∨ rbot ≤ g.bottom)) = true
    · rw [if_pos h1]
      by_cases h2 : ((fullActive ++ na).any fun r =>
          decide (min rtop g.top = r.top ∧ max rbot g.bottom = r.bottom)) = true
      · rw [if_pos h2]
        exact ih na a ha
      · rw [if_neg h2]
        exact ih _ a (List.mem_append.mpr (Or.inl ha))
    · rw [if_neg h1]
      exact ih na a ha

/-- Every element produced by `contLoop` is old or a clipped continuation
of the closed shape by some gap. -/
theorem contLoop_src (fullActive : List UnfinishedRect) (lft rtop rbot : Int) :
    ∀ (gs : List Gap) (na : List UnfinishedRect),
      ∀ a ∈ contLoop fullActive lft rtop rbot gs na,
        a ∈ na ∨ ∃ g ∈ gs, a = ⟨lft, min rtop g.top, max rbot g.bottom⟩ := by
  intro gs
  induction gs with
  | nil => intro na a ha; exact Or.inl ha
  | cons g rest ih =>
    intro na a ha
    unfold contLoop at ha
    by_cases h1 : (decide (g.top ≤ rtop ∨ rbot ≤ g.bottom)) = true
    · rw [if_pos h1] at ha
      by_cases h2 : ((fullActive ++ na).any fun r =>
          decide (min rtop g.top = r.top ∧ max rbot g.bottom = r.bottom)) = true
      · rw [if_pos h2] at ha
        rcases ih na a ha with h3 | ⟨g', hg', he⟩
        · exact Or.inl h3
        · exact Or.inr ⟨g', List.mem_cons_of_mem g hg', he⟩
      · rw [if_neg h2] at ha
        rcases ih _ a ha with h3 | ⟨g', hg', he⟩
        · rcases List.mem_append.mp h3 with h4 | h4
          · exact Or.inl h4
          · exact Or.inr ⟨g, List.mem_cons_self g rest, List.mem_singleton.mp h4⟩
        · exact Or.inr ⟨g', List.mem_cons_of_mem g hg', he⟩
    · rw [if_neg h1] at ha
      rcases ih na a ha with h3 | ⟨g', hg', he⟩
      · exact Or.inl h3
      · exact Or.inr ⟨g', List.mem_cons_of_mem g hg', he⟩

/-- For every gap passing the continuation filter, the clipped shape ends
up among the new actives or already sits in the full old active list. -/
theorem contLoop_covers (fullActive : List UnfinishedRect) (lft rtop rbot : Int) :
    ∀ (gs : List Gap) (na : List UnfinishedRect),
      ∀ g ∈ gs, (g.top ≤ rtop ∨ rbot ≤ g.bottom) →
        (∃ a ∈ contLoop fullActive lft rtop rbot gs na,
          a.top = min rtop g.top ∧ a.bottom = max rbot g.bottom) ∨
          ∃ b ∈ fullActive,
            b.top = min rtop g.top ∧ b.bottom = max rbot g.bottom := by
  intro gs
  induction gs with
  | nil => intro na g hg; exact absurd hg (List.not_mem_nil g)
  | cons g' rest ih =>
    intro na g hg hpass
    rcases List.mem_cons.mp hg with h1 | h1
    · subst h1
      unfold contLoop
      rw [if_pos (by simpa using hpass)]
      by_cases h2 : ((fullActive ++ na).any fun r =>
          decide (min rtop g.top = r.top ∧ max rbot g.bottom = r.bottom)) = true
      · rw [if_pos h2]
        obtain ⟨r, hr, hre⟩ := List.any_eq_true.mp h2
        simp only [decide_eq_true_eq] at hre
        rcases List.mem_append.mp hr with h3 | h3
        · exact Or.inr ⟨r, h3, hre.1.symm, hre.2.symm⟩
        · exact Or.inl ⟨r, contLoop_mono fullActive lft rtop rbot rest na r h3,
            hre.1.symm, hre.2.symm⟩
      · rw [if_neg h2]
        exact Or.inl ⟨⟨lft, min rtop g.top, max rbot g.bottom⟩,
          contLoop_mono fullActive lft rtop rbot rest _ _
            (List.mem_append.mpr (Or.inr (List.mem_singleton.mpr rfl))),
          rfl, rfl⟩
    · unfold contLoop
      by_cases hp1 : (decide (g'.top ≤ rtop ∨ rbot ≤ g'.bottom)) = true
      · rw [if_pos hp1]
        by_cases h2 : ((fullActive ++ na).any fun r =>
            decide (min rtop g'.top = r.top ∧ max rbot g'.bottom = r.bottom)) = true
        · rw [if_pos h2]
          exact ih na g h1 hpass
        · rw [if_neg h2]
          exact ih _ g h1 hpass
      · rw [if_neg hp1]
        exact ih na g h1 hpass

/-- `closeStep` only appends to the new actives. -/
theorem closeStep_na_mono (x : Int) (gaps : List Gap)
    (fullActive : List UnfinishedRect) :
    ∀ (rest na : List UnfinishedRect) (out : List Rect),
      ∀ a ∈ na, a ∈ (closeStep x gaps fullActive rest na out).2.1 := by
  intro rest
  induction rest with
  | nil => intro na out a ha; exact ha
  | cons r rest ih =>
    intro na out a ha
    unfold closeStep
    by_cases hg : (gaps.any fun g =>
        decide (g.top ≥ r.top ∧ r.bottom ≥ g.bottom)) = true
    · rw [if_pos hg]
      exact ih na out a ha
    · rw [if_neg hg]
      exact ih _ _ a (contLoop_mono fullActive r.left r.top r.bottom gaps na a ha)

/-- Every new active of `closeStep` is old or a clipped continuation of a
walked rectangle by a gap. -/
theorem closeStep_na_src (x : Int) (gaps : List Gap)
    (fullActive : List UnfinishedRect) :
    ∀ (rest na : List UnfinishedRect) (out : List Rect),
      ∀ a ∈ (closeStep x gaps fullActive rest na out).2.1,
        a ∈ na ∨ ∃ r ∈ rest, ∃ g ∈ gaps,
          a = ⟨r.left, min r.top g.top, max r.bottom g.bottom⟩ := by
  intro rest
  induction rest with
  | nil => intro na out a ha; exact Or.inl ha
  | cons r rest ih =>
    intro na out a ha
    unfold closeStep at ha
    by_cases hg : (gaps.any fun g =>
        decide (g.top ≥ r.top ∧ r.bottom ≥ g.bottom)) = true
    · rw [if_pos hg] at ha
      rcases ih na out a ha with h1 | ⟨r', hr', hg'⟩
      · exact Or.inl h1
      · exact Or.inr ⟨r', List.mem_cons_of_mem r hr', hg'⟩
    · rw [if_neg hg] at ha
      rcases ih _ _ a ha with h1 | ⟨r', hr', hg'⟩
      · rcases contLoop_src fullActive r.left r.top r.bottom gaps na a h1 with
          h2 | ⟨g, hgm, he⟩
        · exact Or.inl h2
        · exact Or.inr ⟨r, List.mem_cons_self r rest, g, hgm, he⟩
      · exact Or.inr ⟨r', List.mem_cons_of_mem r hr', hg'⟩

/-- Every kept rectangle of `closeStep` fits one of the gaps. -/
theorem closeStep_kept_fit (x : Int) (gaps : List Gap)
    (fullActive : List UnfinishedRect) :
    ∀ (rest na : List UnfinishedRect) (out : List Rect),
      ∀ r ∈ (closeStep x gaps fullActive rest na out).1,
        (gaps.any fun g => decide (g.top ≥ r.top ∧ r.bottom ≥ g.bottom)) = true := by
  intro rest
  induction rest with
  | nil => intro na out r hr; exact absurd hr (List.not_mem_nil r)
  | cons r' rest ih =>
    intro na out r hr
    unfold closeStep at hr
    by_cases hg : (gaps.any fun g =>
        decide (g.top ≥ r'.top ∧ r'.bottom ≥ g.bottom)) = true
    · rw [if_pos hg] at hr
      rcases List.mem_cons.mp hr with h1 | h1
      · rw [h1]; exact hg
      · exact ih na out r h1
    · rw [if_neg hg] at hr
      exact ih _ _ r hr

/-- Every walked rectangle fitting a gap is kept by `closeStep`. -/
theorem closeStep_kept_of_fit (x : Int) (gaps : List Gap)
    (fullActive : List UnfinishedRect) :
    ∀ (rest na : List UnfinishedRect) (out : List Rect), ∀ r ∈ rest,
      (gaps.any fun g => decide (g.top ≥ r.top ∧ r.bottom ≥ g.bottom)) = true →
      r ∈ (closeStep x gaps fullActive rest na out).1 := by
  intro rest
  induction rest with
  | nil => intro na out r hr; exact absurd hr (List.not_mem_nil r)
  | cons r' rest ih =>
    intro na out r hr hfit
    unfold closeStep
    by_cases hg : (gaps.any fun g =>
        decide (g.top ≥ r'.top ∧ r'.bottom ≥ g.bottom)) = true
    · rw [if_pos hg]
      rcases List.mem_cons.mp hr with h1 | h1
      · exact h1 ▸ List.mem_cons_self _ _
      · exact List.mem_cons_of_mem r' (ih na out r h1 hfit)
    · rw [if_neg hg]
      rcases List.mem_cons.mp hr with h1 | h1
      · subst h1; exact absurd hfit hg
      · exact ih _ _ r h1 hfit

/-- Every walked rectangle is kept or emitted with right edge `x - 1`. -/
theorem closeStep_dichotomy (x : Int) (gaps : List Gap)
    (fullActive : List UnfinishedRect) :
    ∀ (rest na : List UnfinishedRect) (out : List Rect), ∀ r ∈ rest,
      r ∈ (closeStep x gaps fullActive rest na out).1 ∨
        (⟨r.left, x - 1, r.top, r.bottom⟩ : Rect) ∈
          (closeStep x gaps fullActive rest na out).2.2 := by
  intro rest
  induction rest with
  | nil => intro na out r hr; exact absurd hr (List.not_mem_nil r)
  | cons r' rest ih =>
    intro na out r hr
    unfold closeStep
    by_cases hg : (gaps.any fun g =>
        decide (g.top ≥ r'.top ∧ r'.bottom ≥ g.bottom)) = true
    · rw [if_pos hg]
      rcases List.mem_cons.mp hr with h1 | h1
      · exact Or.inl (h1 ▸ List.mem_cons_self _ _)
      · rcases ih na out r h1 with h2 | h2
        · exact Or.inl (List.mem_cons_of_mem r' h2)
        · exact Or.inr h2
    · rw [if_neg hg]
      rcases List.mem_cons.mp hr with h1 | h1
      · subst h1
        obtain ⟨emits, he, _, _⟩ := closeStep_out_eq x gaps fullActive rest
          (contLoop fullActive r.left r.top r.bottom gaps na)
          (out ++ [⟨r.left, x - 1, r.top, r.bottom⟩])
        refine Or.inr ?_
        rw [he]
        exact List.mem_append.mpr (Or.inl (List.mem_append.mpr
          (Or.inr (List.mem_singleton.mpr rfl))))
      · exact ih _ _ r h1

/-- If a closed rectangle's continuation by a filtered gap is not started,
an old active with exactly the clipped shape exists; either way the clipped
shape is carried forward. -/
theorem closeStep_cont_covers (x : Int) (gaps : List Gap)
    (fullActive : List UnfinishedRect) :
    ∀ (rest na : List UnfinishedRect) (out : List Rect), ∀ r ∈ rest,
      (gaps.any fun g => decide (g.top ≥ r.top ∧ r.bottom ≥ g.bottom)) = false →
      ∀ g ∈ gaps, (g.top ≤ r.top ∨ r.bottom ≤ g.bottom) →
      (∃ a ∈ (closeStep x gaps fullActive rest na out).2.1,
        a.top = min r.top g.top ∧ a.bottom = max r.bottom g.bottom) ∨
        ∃ b ∈ fullActive,
          b.top = min r.top g.top ∧ b.bottom = max r.bottom g.bottom := by
  intro rest
  induction rest with
  | nil => intro na out r hr; exact absurd hr (List.not_mem_nil r)
  | cons r' rest ih =>
    intro na out r hr hnofit g hg hpass
    unfold closeStep
    by_cases hg' : (gaps.any fun g =>
        decide (g.top ≥ r'.top ∧ r'.bottom ≥ g.bottom)) = true
    · rw [if_pos hg']
      rcases List.mem_cons.mp hr with h1 | h1
      · subst h1
        rw [hnofit] at hg'
        cases hg'
      · exact ih na out r h1 hnofit g hg hpass
    · rw [if_neg hg']
      rcases List.mem_cons.mp hr with h1 | h1
      · subst h1
        rcases contLoop_covers fullActive r.left r.top r.bottom gaps na g hg
          hpass with ⟨a, ha, hae⟩ | ⟨b, hb, hbe⟩
        · exact Or.inl ⟨a, closeStep_na_mono x gaps fullActive rest _ _ a ha, hae⟩
        · exact Or.inr ⟨b, hb, hbe⟩
      · exact ih _ _ r h1 hnofit g hg hpass

/-- Freeness is constant between event positions. -/
theorem free_constancy (parent : Rect) (obs : List Rect) (x1 x2 : Int)
    (h12 : x1 ≤ x2)
    (hnoev : ∀ v, x1 < v → v ≤ x2 → ¬ eventX parent obs v) :
    ∀ y, freeAt obs x1 y ↔ freeAt obs x2 y := by
  intro y
  have hcov : ∀ o ∈ obs,
      (o.left ≤ x1 ∧ x1 ≤ o.right) ↔ (o.left ≤ x2 ∧ x2 ≤ o.right) := by
    intro o ho
    constructor
    · rintro ⟨hl, hr⟩
      refine ⟨by omega, ?_⟩
      by_contra hlt
      push_neg at hlt
      exact hnoev (o.right + 1) (by omega) (by omega)
        (Or.inr (Or.inr ⟨o, ho, rfl⟩))
    · rintro ⟨hl, hr⟩
      refine ⟨?_, by omega⟩
      by_contra hlt
      push_neg at hlt
      exact hnoev o.left (by omega) (by omega) (Or.inr (Or.inl ⟨o, ho, rfl⟩))
  unfold freeAt
  constructor
  · intro h o ho hc
    obtain ⟨h1, h2⟩ := (hcov o ho).mpr ⟨hc.1, hc.2.1⟩
    exact h o ho ⟨h1, h2, hc.2.2.1, hc.2.2.2⟩
  · intro h o ho hc
    obtain ⟨h1, h2⟩ := (hcov o ho).mp ⟨hc.1, hc.2.1⟩
    exact h o ho ⟨h1, h2, hc.2.2.1, hc.2.2.2⟩

/-- Soundness invariant of the sweep after the line at `xk`: each active
rectangle and each output covers only free points of the region's vertical
extent, over the columns it spans so far. -/
def InvSound (parent : Rect) (obs : List Rect)
    (st : List UnfinishedRect × List Rect) (xk : Int) : Prop :=
  (∀ a ∈ st.1,
    parent.left ≤ a.left ∧ a.left ≤ xk ∧
    (∀ y, a.bottom ≤ y → y ≤ a.top → parent.bottom ≤ y ∧ y ≤ parent.top) ∧
    ∀ x' y, a.left ≤ x' → x' ≤ xk → a.bottom ≤ y → y ≤ a.top →
      freeAt obs x' y) ∧
  ∀ q ∈ st.2,
    parent.left ≤ q.left ∧ q.right ≤ xk - 1 ∧ q.left ≤ q.right ∧
    (∀ y, q.bottom ≤ y → y ≤ q.top → parent.bottom ≤ y ∧ y ≤ parent.top) ∧
    ∀ x' y, q.left ≤ x' → x' ≤ q.right → q.bottom ≤ y → y ≤ q.top →
      freeAt obs x' y

/-- Completeness invariant: at the current line every free point lies
under an active rectangle, and in every processed column every free point
lies under an output or an active rectangle. -/
def InvComplete (parent : Rect) (obs : List Rect)
    (st : List UnfinishedRect × List Rect) (xk : Int) : Prop :=
  (parent.left ≤ xk → ∀ y, parent.bottom ≤ y → y ≤ parent.top →
    freeAt obs xk y → ∃ a ∈ st.1, a.bottom ≤ y ∧ y ≤ a.top) ∧
  ∀ x' y, parent.left ≤ x' → x' ≤ xk → parent.bottom ≤ y → y ≤ parent.top →
    freeAt obs x' y →
    (∃ q ∈ st.2, q.left ≤ x' ∧ x' ≤ q.right ∧ q.bottom ≤ y ∧ y ≤ q.top) ∨
      ∃ a ∈ st.1, a.left ≤ x' ∧ a.bottom ≤ y ∧ y ≤ a.top

/-- The open-line step preserves both sweep invariants. -/
theorem stepOpen_coverage (parent : Rect) (obs : List Rect)
    (hsort : obs.Pairwise fun a b => b.top ≤ a.top)
    (hv : ∀ o ∈ obs, o.valid)
    (hcont : ∀ o ∈ obs, parent.contains_rectangle o)
    (st : List UnfinishedRect × List Rect) (line : Line) (xk : Int)
    (hxk : xk < line.x)
    (hxl : parent.left ≤ line.x)
    (hnoev : ∀ v, xk < v → v < line.x → ¬ eventX parent obs v)
    (hko : line.x = parent.left ∨ ∀ o ∈ obs, o.left ≠ line.x)
    (hS : InvSound parent obs st xk) (hC : InvComplete parent obs st xk) :
    InvSound parent obs
      (openLoop line.x (computeGaps parent obs line.x) (sortActive st.1),
        st.2) line.x ∧
    InvComplete parent obs
      (openLoop line.x (computeGaps parent obs line.x) (sortActive st.1),
        st.2) line.x := by
  obtain ⟨hSa, hSq⟩ := hS
  obtain ⟨hCc, hCp⟩ := hC
  have hAmem : ∀ a : UnfinishedRect, a ∈ sortActive st.1 ↔ a ∈ st.1 :=
    fun a => (sortActive_perm st.1).mem_iff
  have hcv : ∀ o ∈ covering obs line.x, o.bottom ≤ o.top :=
    fun o ho => (hv o (covering_mem ho).1).2
  have hcb : ∀ o ∈ covering obs line.x, parent.bottom ≤ o.bottom :=
    fun o ho => (hcont o (covering_mem ho).1).2.2.2
  have gsound := computeGaps_sound parent obs line.x
    (covering_pairwise line.x hsort)
  have ginreg := computeGaps_in_region parent obs line.x hcv hcb
  have gcomp := computeGaps_complete parent obs line.x
  have hconst : ∀ x', xk ≤ x' → x' < line.x →
      ∀ y, freeAt obs x' y ↔ freeAt obs xk y :=
    fun x' h1 h2 y =>
      ((free_constancy parent obs xk x' h1
        fun v hv1 hv2 => hnoev v hv1 (by omega)) y).symm
  have hplxk : parent.left ≤ xk ∨ line.x ≤ parent.left := by
    by_cases h : parent.left ≤ xk
    · exact Or.inl h
    · right
      by_contra h2
      push_neg at h h2
      exact hnoev parent.left (by omega) (by omega) (Or.inl rfl)
  have hshift : ∀ a ∈ st.1, ∀ y, freeAt obs xk y → freeAt obs line.x y := by
    intro a ha y hf
    rcases hko with hpl | hnostart
    · exfalso
      have := (hSa a ha).1
      have := (hSa a ha).2.1
      omega
    · intro o ho hc
      have holeft : o.left ≤ xk := by
        rcases lt_or_le xk o.left with h1 | h1
        · exfalso
          have hne := hnostart o ho
          exact hnoev o.left h1 (by omega) (Or.inr (Or.inl ⟨o, ho, rfl⟩))
        · exact h1
      exact hf o ho ⟨holeft, by omega, hc.2.2.1, hc.2.2.2⟩
  have hleftle : ∀ a ∈ openLoop line.x (computeGaps parent obs line.x)
      (sortActive st.1), a.left ≤ line.x := by
    intro a ha
    rcases openLoop_src line.x _ _ a ha with hm | ⟨g, _, he⟩
    · have := (hSa a ((hAmem a).mp hm)).2.1
      omega
    · rw [he]
  constructor
  · constructor
    · intro a ha
      rcases openLoop_src line.x _ _ a ha with hm | ⟨g, hg, he⟩
      · have hold := hSa a ((hAmem a).mp hm)
        refine ⟨hold.1, by omega, hold.2.2.1, ?_⟩
        intro x' y hx1 hx2 hy1 hy2
        rcases eq_or_lt_of_le hx2 with heq | hlt
        · rw [heq]
          exact hshift a ((hAmem a).mp hm) y
            (hold.2.2.2 xk y hold.2.1 (le_refl xk) hy1 hy2)
        · rcases le_or_lt x' xk with h1 | h1
          · exact hold.2.2.2 x' y hx1 h1 hy1 hy2
          · exact (hconst x' (by omega) hlt y).mpr
              (hold.2.2.2 xk y hold.2.1 (le_refl xk) hy1 hy2)
      · subst he
        dsimp only
        refine ⟨hxl, le_refl _, ?_, ?_⟩
        · intro y hy1 hy2
          have h1 := ginreg g hg
          have h2 := (gsound g hg y hy1 hy2).1
          exact ⟨by omega, h2⟩
        · intro x' y hx1 hx2 hy1 hy2
          have hx : x' = line.x := by omega
          rw [hx]
          exact (gsound g hg y hy1 hy2).2
    · intro q hq
      have hold := hSq q hq
      exact ⟨hold.1, by omega, hold.2.2.1, hold.2.2.2⟩
  · constructor
    · intro _ y hy1 hy2 hf
      obtain ⟨g, hg, hgy⟩ := gcomp y hy1 hy2 hf
      obtain ⟨a, ha, hat, hab⟩ := openLoop_covers line.x _ (sortActive st.1) g hg
      exact ⟨a, ha, by omega, by omega⟩
    · intro x' y hx1 hx2 hy1 hy2 hf
      rcases eq_or_lt_of_le hx2 with heq | hlt
      · obtain ⟨g, hg, hgy⟩ := gcomp y hy1 hy2 (heq ▸ hf)
        obtain ⟨a, ha, hat, hab⟩ :=
          openLoop_covers line.x _ (sortActive st.1) g hg
        exact Or.inr ⟨a, ha, by rw [heq]; exact hleftle a ha, by omega, by omega⟩
      · rcases le_or_lt x' xk with h1 | h1
        · rcases hCp x' y hx1 h1 hy1 hy2 hf with ⟨q, hq, hqp⟩ | ⟨a, ha, hap⟩
          · exact Or.inl ⟨q, hq, hqp⟩
          · exact Or.inr ⟨a, openLoop_mono line.x _ _ a ((hAmem a).mpr ha), hap⟩
        · have hplk : parent.left ≤ xk := by
            rcases hplxk with h2 | h2
            · exact h2
            · omega
          have hfk : freeAt obs xk y := (hconst x' (by omega) hlt y).mp hf
          obtain ⟨a, ha, hap⟩ := hCc hplk y hy1 hy2 hfk
          exact Or.inr ⟨a, openLoop_mono line.x _ _ a ((hAmem a).mpr ha),
            by have := (hSa a ha).2.1; omega, hap⟩

/-- The close-line step preserves both sweep invariants. -/
theorem stepClose_coverage (parent : Rect) (obs : List Rect)
    (hsort : obs.Pairwise fun a b => b.top ≤ a.top)
    (hv : ∀ o ∈ obs, o.valid)
    (hcont : ∀ o ∈ obs, parent.contains_rectangle o)
    (st : List UnfinishedRect × List Rect) (line : Line) (xk : Int)
    (hxk : xk < line.x)
    (hnoev : ∀ v, xk < v → v < line.x → ¬ eventX parent obs v)
    (hnoend : ∀ o ∈ obs, o.right + 1 ≠ line.x)
    (hplz : parent.left < line.x)
    (hS : InvSound parent obs st xk) (hC : InvComplete parent obs st xk) :
    InvSound parent obs
      (closeResult line.x (computeGaps parent obs line.x) (sortActive st.1)
        st.2) line.x ∧
    InvComplete parent obs
      (closeResult line.x (computeGaps parent obs line.x) (sortActive st.1)
        st.2) line.x := by
  obtain ⟨hSa, hSq⟩ := hS
  obtain ⟨hCc, hCp⟩ := hC
  have hAmem : ∀ a : UnfinishedRect, a ∈ sortActive st.1 ↔ a ∈ st.1 :=
    fun a => (sortActive_perm st.1).mem_iff
  have hcv : ∀ o ∈ covering obs line.x, o.bottom ≤ o.top :=
    fun o ho => (hv o (covering_mem ho).1).2
  have hcb : ∀ o ∈ covering obs line.x, parent.bottom ≤ o.bottom :=
    fun o ho => (hcont o (covering_mem ho).1).2.2.2
  have gsound := computeGaps_sound parent obs line.x
    (covering_pairwise line.x hsort)
  have ginreg := computeGaps_in_region parent obs line.x hcv hcb
  have gcomp := computeGaps_complete parent obs line.x
  have hconst : ∀ x', xk ≤ x' → x' < line.x →
      ∀ y, freeAt obs x' y ↔ freeAt obs xk y :=
    fun x' h1 h2 y =>
      ((free_constancy parent obs xk x' h1
        fun v hv1 hv2 => hnoev v hv1 (by omega)) y).symm
  have hplk : parent.left ≤ xk := by
    by_cases h : parent.left ≤ xk
    · exact h
    · exfalso
      push_neg at h
      exact hnoev parent.left (by omega) (by omega) (Or.inl rfl)
  have hgrow : ∀ y, freeAt obs line.x y → freeAt obs xk y := by
    intro y hf o ho hc
    have hright : line.x ≤ o.right := by
      by_contra h2
      push_neg at h2
      have hne := hnoend o ho
      exact hnoev (o.right + 1) (by omega) (by omega)
        (Or.inr (Or.inr ⟨o, ho, rfl⟩))
    exact hf o ho ⟨by omega, hright, hc.2.2.1, hc.2.2.2⟩
  have hfit_free : ∀ r : UnfinishedRect,
      ((computeGaps parent obs line.x).any fun g =>
        decide (g.top ≥ r.top ∧ r.bottom ≥ g.bottom)) = true →
      ∀ y, r.bottom ≤ y → y ≤ r.top → freeAt obs line.x y := by
    intro r hfit y hy1 hy2
    obtain ⟨g, hg, hgd⟩ := List.any_eq_true.mp hfit
    simp only [decide_eq_true_eq] at hgd
    exact (gsound g hg y (by omega) (by omega)).2
  have hleftk : ∀ a ∈ (closeStep line.x (computeGaps parent obs line.x)
      (sortActive st.1) (sortActive st.1) [] st.2).1 ++
      (closeStep line.x (computeGaps parent obs line.x) (sortActive st.1)
        (sortActive st.1) [] st.2).2.1, a.left ≤ xk := by
    intro a ha
    rcases List.mem_append.mp ha with hk | hn
    · exact (hSa a ((hAmem a).mp
        ((closeStep_kept_sublist line.x _ _ _ [] st.2).subset hk))).2.1
    · rcases closeStep_na_src line.x _ _ _ [] st.2 a hn with h0 |
        ⟨r, hrA, g, hg, he⟩
      · exact absurd h0 (List.not_mem_nil a)
      · rw [he]
        exact (hSa r ((hAmem r).mp hrA)).2.1
  have hcol : ∀ y, parent.bottom ≤ y → y ≤ parent.top →
      freeAt obs line.x y →
      ∃ a ∈ (closeStep line.x (computeGaps parent obs line.x)
          (sortActive st.1) (sortActive st.1) [] st.2).1 ++
        (closeStep line.x (computeGaps parent obs line.x) (sortActive st.1)
          (sortActive st.1) [] st.2).2.1,
        a.bottom ≤ y ∧ y ≤ a.top := by
    intro y hy1 hy2 hf
    obtain ⟨g, hg, hgy⟩ := gcomp y hy1 hy2 hf
    have hfk := hgrow y hf
    obtain ⟨b0, hb0, hb0y⟩ := hCc hplk y hy1 hy2 hfk
    have hb0A : b0 ∈ sortActive st.1 := (hAmem b0).mpr hb0
    by_cases hfit : ((computeGaps parent obs line.x).any fun g' =>
        decide (g'.top ≥ b0.top ∧ b0.bottom ≥ g'.bottom)) = true
    · exact ⟨b0, List.mem_append.mpr (Or.inl
        (closeStep_kept_of_fit line.x _ _ _ [] st.2 b0 hb0A hfit)), hb0y⟩
    · have hnofit : ((computeGaps parent obs line.x).any fun g' =>
          decide (g'.top ≥ b0.top ∧ b0.bottom ≥ g'.bottom)) = false :=
        Bool.eq_false_iff.mpr hfit
      have hpass : g.top ≤ b0.top ∨ b0.bottom ≤ g.bottom := by
        by_contra h2
        push_neg at h2
        exact hfit (List.any_eq_true.mpr ⟨g, hg, by
          simp only [decide_eq_true_eq]
          omega⟩)
      rcases closeStep_cont_covers line.x _ _ _ [] st.2 b0 hb0A hnofit g hg
        hpass with ⟨a, ha, hat, hab⟩ | ⟨b, hb, hbt, hbb⟩
      · exact ⟨a, List.mem_append.mpr (Or.inr ha), by omega, by omega⟩
      · have hbfit : ((computeGaps parent obs line.x).any fun g' =>
            decide (g'.top ≥ b.top ∧ b.bottom ≥ g'.bottom)) = true :=
          List.any_eq_true.mpr ⟨g, hg, by
            simp only [decide_eq_true_eq]
            omega⟩
        exact ⟨b, List.mem_append.mpr (Or.inl
          (closeStep_kept_of_fit line.x _ _ _ [] st.2 b hb hbfit)),
          by omega, by omega⟩
  obtain ⟨emits, he1, he2, _⟩ := closeStep_out_eq line.x
    (computeGaps parent obs line.x) (sortActive st.1) (sortActive st.1) []
    st.2
  constructor
  · constructor
    · intro a ha
      rcases List.mem_append.mp ha with hk | hn
      · have haA : a ∈ st.1 := (hAmem a).mp
          ((closeStep_kept_sublist line.x _ _ _ [] st.2).subset hk)
        have hold := hSa a haA
        have hfit := closeStep_kept_fit line.x _ _ _ [] st.2 a hk
        refine ⟨hold.1, by omega, hold.2.2.1, ?_⟩
        intro x' y hx1 hx2 hy1 hy2
        rcases eq_or_lt_of_le hx2 with heq | hlt
        · rw [heq]
          exact hfit_free a hfit y hy1 hy2
        · rcases le_or_lt x' xk with h1 | h1
          · exact hold.2.2.2 x' y hx1 h1 hy1 hy2
          · exact (hconst x' (by omega) hlt y).mpr
              (hold.2.2.2 xk y hold.2.1 (le_refl xk) hy1 hy2)
      · rcases closeStep_na_src line.x _ _ _ [] st.2 a hn with h0 |
          ⟨r, hrA, g, hg, he⟩
        · exact absurd h0 (List.not_mem_nil a)
        · have hold := hSa r ((hAmem r).mp hrA)
          subst he
          dsimp only
          refine ⟨hold.1, by omega, ?_, ?_⟩
          · intro y hy1 hy2
            exact hold.2.2.1 y (by omega) (by omega)
          · intro x' y hx1 hx2 hy1 hy2
            rcases eq_or_lt_of_le hx2 with heq | hlt
            · rw [heq]
              exact (gsound g hg y (by omega) (by omega)).2
            · rcases le_or_lt x' xk with h1 | h1
              · exact hold.2.2.2 x' y hx1 h1 (by omega) (by omega)
              · exact (hconst x' (by omega) hlt y).mpr
                  (hold.2.2.2 xk y hold.2.1 (le_refl xk) (by omega) (by omega))
    · intro q hq
      have hq' : q ∈ st.2 ++ emits := by
        rw [← he1]
        exact hq
      rcases List.mem_append.mp hq' with h1 | h1
      · have hold := hSq q h1
        exact ⟨hold.1, by omega, hold.2.2.1, hold.2.2.2⟩
      · obtain ⟨hqr, r, hrA, hql, hqt, hqb⟩ := he2 q h1
        have hold := hSa r ((hAmem r).mp hrA)
        refine ⟨by omega, by omega, by omega, ?_, ?_⟩
        · intro y hy1 hy2
          exact hold.2.2.1 y (by omega) (by omega)
        · intro x' y hx1 hx2 hy1 hy2
          rcases le_or_lt x' xk with h1' | h1'
          · exact hold.2.2.2 x' y (by omega) h1' (by omega) (by omega)
          · exact (hconst x' (by omega) (by omega) y).mpr
              (hold.2.2.2 xk y hold.2.1 (le_refl xk) (by omega) (by omega))
  · constructor
    · intro _ y hy1 hy2 hf
      exact hcol y hy1 hy2 hf
    · intro x' y hx1 hx2 hy1 hy2 hf
      rcases eq_or_lt_of_le hx2 with heq | hlt
      · obtain ⟨a, ha, hay⟩ := hcol y hy1 hy2 (heq ▸ hf)
        exact Or.inr ⟨a, ha, by have := hleftk a ha; omega, hay⟩
      · rcases le_or_lt x' xk with h1 | h1
        · rcases hCp x' y hx1 h1 hy1 hy2 hf with ⟨q, hq, hqp⟩ |
            ⟨b0, hb0, hb0l, hb0y⟩
          · refine Or.inl ⟨q, ?_, hqp⟩
            show q ∈ (closeStep line.x (computeGaps parent obs line.x)
              (sortActive st.1) (sortActive st.1) [] st.2).2.2
            rw [he1]
            exact List.mem_append.mpr (Or.inl hq)
          · rcases closeStep_dichotomy line.x _ _ _ [] st.2 b0
              ((hAmem b0).mpr hb0) with hk | he
            · exact Or.inr ⟨b0, List.mem_append.mpr (Or.inl hk), hb0l, hb0y⟩
            · refine Or.inl ⟨⟨b0.left, line.x - 1, b0.top, b0.bottom⟩, he,
                ?_, ?_, ?_, ?_⟩
              · show b0.left ≤ x'; exact hb0l
              · show x' ≤ line.x - 1; omega
              · show b0.bottom ≤ y; omega
              · show y ≤ b0.top; omega
        · have hfk : freeAt obs xk y := (hconst x' (by omega) hlt y).mp hf
          obtain ⟨b0, hb0, hb0y⟩ := hCc hplk y hy1 hy2 hfk
          have hb0l : b0.left ≤ xk := (hSa b0 hb0).2.1
          rcases closeStep_dichotomy line.x _ _ _ [] st.2 b0
            ((hAmem b0).mpr hb0) with hk | he
          · exact Or.inr ⟨b0, List.mem_append.mpr (Or.inl hk), by omega, hb0y⟩
          · refine Or.inl ⟨⟨b0.left, line.x - 1, b0.top, b0.bottom⟩, he,
              ?_, ?_, ?_, ?_⟩
            · show b0.left ≤ x'; omega
            · show x' ≤ line.x - 1; omega
            · show b0.bottom ≤ y; omega
            · show y ≤ b0.top; omega

/-- Processing one sweep line preserves both invariants. -/
theorem lineStep_coverage (parent : Rect) (obs : List Rect)
    (hsort : obs.Pairwise fun a b => b.top ≤ a.top)
    (hv : ∀ o ∈ obs, o.valid)
    (hcont : ∀ o ∈ obs, parent.contains_rectangle o)
    (st : List UnfinishedRect × List Rect) (line : Line) (xk : Int)
    (hxk : xk < line.x) (hxl : parent.left ≤ line.x)
    (hnoev : ∀ v, xk < v → v < line.x → ¬ eventX parent obs v)
    (hko : line.opens = true →
      line.x = parent.left ∨ ∀ o ∈ obs, o.left ≠ line.x)
    (hkc : line.opens = false →
      (∀ o ∈ obs, o.right + 1 ≠ line.x) ∧ parent.left < line.x)
    (hS : InvSound parent obs st xk) (hC : InvComplete parent obs st xk) :
    InvSound parent obs (lineStep parent obs st line) line.x ∧
      InvComplete parent obs (lineStep parent obs st line) line.x := by
  unfold lineStep
  by_cases ho : line.opens = true
  · rw [if_pos ho]
    exact stepOpen_coverage parent obs hsort hv hcont st line xk hxk hxl
      hnoev (hko ho) hS hC
  · rw [if_neg ho]
    obtain ⟨h1, h2⟩ := hkc (Bool.eq_false_iff.mpr ho)
    exact stepClose_coverage parent obs hsort hv hcont st line xk hxk hnoev
      h1 h2 hS hC

/-- The whole sweep preserves both invariants along any suffix of the
event lines. -/
theorem fold_coverage (parent : Rect) (obs : List Rect)
    (hp : parent.left ≤ parent.right)
    (hsort : obs.Pairwise fun a b => b.top ≤ a.top)
    (hv : ∀ o ∈ obs, o.valid)
    (hcont : ∀ o ∈ obs, parent.contains_rectangle o)
    (hadj : ∀ o ∈ obs, ∀ o' ∈ obs, o'.left ≠ o.right + 1) :
    ∀ (remaining : List Line) (st : List UnfinishedRect × List Rect)
      (xk : Int),
      remaining.Pairwise (fun a b => a.x < b.x) →
      (∀ l ∈ remaining, xk < l.x) →
      (∀ l ∈ remaining, l ∈ sweepLines parent obs) →
      (∀ l ∈ sweepLines parent obs, l.x ≤ xk ∨ l ∈ remaining) →
      parent.left - 1 ≤ xk → xk ≤ parent.right →
      InvSound parent obs st xk → InvComplete parent obs st xk →
      ∃ xk', xk ≤ xk' ∧ xk' ≤ parent.right ∧
        (∀ l ∈ sweepLines parent obs, l.x ≤ xk') ∧
        InvSound parent obs (remaining.foldl (lineStep parent obs) st) xk' ∧
        InvComplete parent obs (remaining.foldl (lineStep parent obs) st)
          xk' := by
  intro remaining
  induction remaining with
  | nil =>
    intro st xk _ _ _ hHL _ hub hS hC
    refine ⟨xk, le_refl xk, hub, ?_, hS, hC⟩
    intro l hl
    rcases hHL l hl with h1 | h1
    · exact h1
    · exact absurd h1 (List.not_mem_nil l)
  | cons l rest ih =>
    intro st xk hpair hgt hsub hHL hlb hub hS hC
    obtain ⟨hhead, hrest⟩ := List.pairwise_cons.mp hpair
    have hlmem := hsub l (List.mem_cons_self l rest)
    have hbounds := sweepLines_mem_bounds parent obs l hlmem
    have hxk : xk < l.x := hgt l (List.mem_cons_self l rest)
    have hnoev : ∀ v, xk < v → v < l.x → ¬ eventX parent obs v := by
      intro v h1 h2 hev
      obtain ⟨l', hl', hlx⟩ :=
        sweepLines_covers_events parent obs v (by omega) (by omega) hev
      rcases hHL l' hl' with h3 | h3
      · omega
      · rcases List.mem_cons.mp h3 with h4 | h4
        · rw [h4] at hlx; omega
        · have := hhead l' h4
          omega
    have hkind := sweepLines_kind parent obs hp hadj l hlmem
    obtain ⟨hS', hC'⟩ := lineStep_coverage parent obs hsort hv hcont st l xk
      hxk hbounds.1 hnoev hkind.1 hkind.2 hS hC
    have hHL' : ∀ l' ∈ sweepLines parent obs, l'.x ≤ l.x ∨ l' ∈ rest := by
      intro l' hl'
      rcases hHL l' hl' with h3 | h3
      · exact Or.inl (by omega)
      · rcases List.mem_cons.mp h3 with h4 | h4
        · exact Or.inl (by rw [h4])
        · exact Or.inr h4
    obtain ⟨xk', a1, a2, a3, a4, a5⟩ := ih (lineStep parent obs st l) l.x
      hrest hhead (fun l' hl' => hsub l' (List.mem_cons_of_mem l hl')) hHL'
      (by have := hbounds.1; omega) hbounds.2 hS' hC'
    exact ⟨xk', by omega, a2, a3, by simpa using a4, by simpa using a5⟩

/-! ## Claim theorems -/

/-- C1: the region `(left 0, right 5, bottom 0, top 5)` with the single
obstruction `(left 0, right 2, bottom 1, top 5)` decomposes into exactly
the two rectangles `(0, 5, 0, 0)` and `(3, 5, 5, 0)`. -/
theorem claim1_concrete_scenario :
    unobstructed_subrectangles ⟨0, 5, 5, 0⟩ [⟨0, 2, 5, 1⟩] =
      [⟨0, 5, 0, 0⟩, ⟨3, 5, 5, 0⟩] := by decide

/-- C2 counterexample: the claim that no two distinct output rectangles
overlap is already false in the spec's own concrete scenario — the two
outputs of C1 are distinct and overlap (they share the cells
`3 ≤ x ≤ 5, y = 0`). -/
theorem claim2_counterexample :
    unobstructed_subrectangles ⟨0, 5, 5, 0⟩ [⟨0, 2, 5, 1⟩] =
      [⟨0, 5, 0, 0⟩, ⟨3, 5, 5, 0⟩] ∧
    (⟨0, 5, 0, 0⟩ : Rect) ≠ ⟨3, 5, 5, 0⟩ ∧
    Rect.overlaps ⟨0, 5, 0, 0⟩ ⟨3, 5, 5, 0⟩ := by decide

/-- C6 counterexample: the claim says a trailing gap is recorded only when
the final cursor is at or below `region.bottom` (`cursor ≤ bottom`).  For
the region `(0, 5, 5, 0)` with no obstructions at line `x = 0` the final
cursor is `5`, which is not `≤ 0`, yet the trailing gap `(5, 0)` is
recorded: the code's test is `cursor ≥ bottom`. -/
theorem claim6_counterexample :
    finalCursor ⟨0, 5, 5, 0⟩ [] 0 = 5 ∧
    ¬ ((5 : Int) ≤ 0) ∧
    computeGaps ⟨0, 5, 5, 0⟩ [] 0 = [⟨5, 0⟩] := by decide

/-- C6 amended: at every event position, the gap list ends with the
trailing gap `(cursor, region.bottom)` exactly when the final cursor is at
or ABOVE `region.bottom` (`cursor ≥ region.bottom`, top being the larger
edge); otherwise no trailing gap is recorded. -/
theorem claim6_amended_trailing_gap (parent : Rect) (obs : List Rect) (x : Int) :
    (∃ gs, computeGaps parent obs x =
        gs ++ [⟨finalCursor parent obs x, parent.bottom⟩]) ↔
      parent.bottom ≤ finalCursor parent obs x := by
  unfold computeGaps finalCursor
  by_cases h : (gapScan parent.top (covering obs x)).2 ≥ parent.bottom
  · simp only [if_pos h]
    exact ⟨fun _ => h, fun _ => ⟨(gapScan parent.top (covering obs x)).1, rfl⟩⟩
  · simp only [if_neg h]
    constructor
    · rintro ⟨gs, hgs⟩
      have hmem : (⟨(gapScan parent.top (covering obs x)).2, parent.bottom⟩ : Gap) ∈
          (gapScan parent.top (covering obs x)).1 := by
        rw [hgs]; simp
      have := gapScan_wellformed parent.top (covering obs x) _ hmem
      simp at this
      omega
    · intro hc; omega

/-- C2 amended: the output rectangles of `unobstructed_subrectangles` are
pairwise distinct (the code's own doc calls them "unique"); they are
allowed to overlap. -/
theorem claim2_amended_pairwise_distinct (parent : Rect)
    (obstructions : List Rect) :
    (unobstructed_subrectangles parent obstructions).Pairwise
      fun a b => a ≠ b := by
  unfold unobstructed_subrectangles sweepRun
  obtain ⟨hact, hout, hbnd⟩ := foldl_distinct parent (sortObs obstructions)
    (sweepLines parent (sortObs obstructions)) ([], []) parent.left
    (sweepLines_sorted parent (sortObs obstructions))
    (sweepLines_mem_bounds parent (sortObs obstructions))
    List.Pairwise.nil List.Pairwise.nil (by intro q hq; cases hq)
  rw [List.pairwise_append]
  refine ⟨hout, ?_, ?_⟩
  · rw [List.pairwise_map]
    refine hact.imp ?_
    intro a b hab heq
    unfold shapeNe at hab
    rw [Rect.mk.injEq] at heq
    omega
  · intro p hp q hq heq
    have h1 := hbnd p hp
    obtain ⟨r, _, hq2⟩ := List.mem_map.mp hq
    rw [heq, ← hq2] at h1
    simp at h1

/-- C3 counterexample: in the spec's own concrete scenario the sum of
`area()` over the output is `10`, while `R.area()` minus the area of
`R ∩ O` (the single obstruction, so also the union) is `25 - 8 = 17`. -/
theorem claim3_counterexample :
    unobstructed_subrectangles ⟨0, 5, 5, 0⟩ [⟨0, 2, 5, 1⟩] =
      [⟨0, 5, 0, 0⟩, ⟨3, 5, 5, 0⟩] ∧
    Rect.area ⟨0, 5, 0, 0⟩ + Rect.area ⟨3, 5, 5, 0⟩ = 10 ∧
    Rect.intersection ⟨0, 5, 5, 0⟩ ⟨0, 2, 5, 1⟩ = some ⟨0, 2, 5, 1⟩ ∧
    Rect.area ⟨0, 5, 5, 0⟩ - Rect.area ⟨0, 2, 5, 1⟩ = 17 ∧
    (10 : Int) ≠ 17 := by decide

/-- C3 amended: the per-rectangle areas cannot be summed (outputs overlap
by design), but the decomposition covers exactly the free part of the
region: a point is covered by some output rectangle exactly when it lies
in the region and in no obstruction.  This holds for a valid region and
valid obstructions contained in the region, pairwise non-overlapping as in
the claim, provided additionally that no obstruction's left edge is
adjacent to another obstruction's right edge (`left = right + 1` would
merge an opening and a closing event line, which the deduplication then
mishandles). -/
theorem claim3_amended_coverage (parent : Rect) (obstructions : List Rect)
    (hp : parent.valid)
    (hv : ∀ o ∈ obstructions, o.valid)
    (hcont : ∀ o ∈ obstructions, parent.contains_rectangle o)
    (hno : obstructions.Pairwise fun a b => ¬ a.overlaps b)
    (hadj : ∀ o ∈ obstructions, ∀ o' ∈ obstructions,
      o'.left ≠ o.right + 1) :
    ∀ x y, (∃ q ∈ unobstructed_subrectangles parent obstructions,
        q.contains_point x y) ↔
      parent.contains_point x y ∧
        ∀ o ∈ obstructions, ¬ o.contains_point x y := by
  intro x y
  have hmem : ∀ o : Rect, o ∈ sortObs obstructions ↔ o ∈ obstructions :=
    fun o => (sortObs_perm obstructions).mem_iff
  have hsort := sortObs_pairwise obstructions
  have hv' : ∀ o ∈ sortObs obstructions, o.valid :=
    fun o ho => hv o ((hmem o).mp ho)
  have hcont' : ∀ o ∈ sortObs obstructions, parent.contains_rectangle o :=
    fun o ho => hcont o ((hmem o).mp ho)
  have hadj' : ∀ o ∈ sortObs obstructions, ∀ o' ∈ sortObs obstructions,
      o'.left ≠ o.right + 1 :=
    fun o ho o' ho' => hadj o ((hmem o).mp ho) o' ((hmem o').mp ho')
  have hfree_iff : ∀ x0 y0, freeAt (sortObs obstructions) x0 y0 ↔
      ∀ o ∈ obstructions, ¬ o.contains_point x0 y0 := by
    intro x0 y0
    unfold freeAt Rect.contains_point
    constructor
    · intro h o ho hc
      exact h o ((hmem o).mpr ho) ⟨hc.1, hc.2.1, hc.2.2.2, hc.2.2.1⟩
    · intro h o ho hc
      exact h o ((hmem o).mp ho) ⟨hc.1, hc.2.1, hc.2.2.2, hc.2.2.1⟩
  obtain ⟨xk', hxk1, hxk2, hHL, hS, hC⟩ :=
    fold_coverage parent (sortObs obstructions) hp.1 hsort hv' hcont' hadj'
      (sweepLines parent (sortObs obstructions)) ([], [])
      (parent.left - 1)
      (sweepLines_sorted parent (sortObs obstructions))
      (fun l hl => by
        have := (sweepLines_mem_bounds parent (sortObs obstructions) l hl).1
        omega)
      (fun l hl => hl)
      (fun l hl => Or.inr hl)
      (le_refl _)
      (by have := hp.1; omega)
      ⟨fun a ha => absurd ha (List.not_mem_nil a),
        fun q hq => absurd hq (List.not_mem_nil q)⟩
      ⟨fun h => absurd h (by omega),
        fun x' y' h1 h2 _ _ _ => absurd (h1.trans h2) (by omega)⟩
  obtain ⟨hSa, hSq⟩ := hS
  obtain ⟨hCc, hCp⟩ := hC
  have hplxk : parent.left ≤ xk' := by
    have hreg := sweepLines_left_open parent (sortObs obstructions) hp.1
    have := hHL _ hreg
    simpa using this
  have hconstf : ∀ x0, xk' ≤ x0 → x0 ≤ parent.right →
      ∀ y0, freeAt (sortObs obstructions) x0 y0 ↔
        freeAt (sortObs obstructions) xk' y0 := by
    intro x0 h1 h2 y0
    refine ((free_constancy parent (sortObs obstructions) xk' x0 h1 ?_)
      y0).symm
    intro v hv1 hv2 hev
    obtain ⟨l', hl', hlx⟩ := sweepLines_covers_events parent
      (sortObs obstructions) v (by omega) (by omega) hev
    have := hHL l' hl'
    omega
  have hout : unobstructed_subrectangles parent obstructions =
      ((sweepLines parent (sortObs obstructions)).foldl
        (lineStep parent (sortObs obstructions)) ([], [])).2 ++
      ((sweepLines parent (sortObs obstructions)).foldl
        (lineStep parent (sortObs obstructions)) ([], [])).1.map
        (fun r => ⟨r.left, parent.right, r.top, r.bottom⟩) := rfl
  constructor
  · rintro ⟨q, hq, hqc⟩
    rw [hout] at hq
    unfold Rect.contains_point at hqc
    rcases List.mem_append.mp hq with h1 | h1
    · have hold := hSq q h1
      have hyreg := hold.2.2.2.1 y (by omega) (by omega)
      have hfree := hold.2.2.2.2 x y (by omega) (by omega) (by omega)
        (by omega)
      exact ⟨⟨by omega, by omega, by omega, by omega⟩,
        (hfree_iff x y).mp hfree⟩
    · obtain ⟨a, ha, he⟩ := List.mem_map.mp h1
      have hold := hSa a ha
      rw [← he] at hqc
      dsimp only at hqc
      have hyreg := hold.2.2.1 y (by omega) (by omega)
      have hfree : freeAt (sortObs obstructions) x y := by
        rcases le_or_lt x xk' with h2 | h2
        · exact hold.2.2.2 x y (by omega) h2 (by omega) (by omega)
        · exact (hconstf x (by omega) (by omega) y).mpr
            (hold.2.2.2 xk' y hold.2.1 (le_refl xk') (by omega) (by omega))
      exact ⟨⟨by omega, by omega, by omega, by omega⟩,
        (hfree_iff x y).mp hfree⟩
  · rintro ⟨hpc, hfo⟩
    unfold Rect.contains_point at hpc
    have hfree : freeAt (sortObs obstructions) x y :=
      (hfree_iff x y).mpr hfo
    rcases le_or_lt x xk' with h1 | h1
    · rcases hCp x y (by omega) h1 (by omega) (by omega) hfree with
        ⟨q, hq, hqp⟩ | ⟨a, ha, hap⟩
      · refine ⟨q, ?_, ?_⟩
        · rw [hout]
          exact List.mem_append.mpr (Or.inl hq)
        · exact ⟨hqp.1, hqp.2.1, hqp.2.2.2, hqp.2.2.1⟩
      · refine ⟨⟨a.left, parent.right, a.top, a.bottom⟩, ?_, ?_, ?_, ?_, ?_⟩
        · rw [hout]
          exact List.mem_append.mpr (Or.inr (List.mem_map.mpr ⟨a, ha, rfl⟩))
        · show x ≥ a.left; omega
        · show x ≤ parent.right; omega
        · show y ≤ a.top; omega
        · show y ≥ a.bottom; omega
    · have hfk : freeAt (sortObs obstructions) xk' y :=
        (hconstf x (by omega) (by omega) y).mp hfree
      obtain ⟨a, ha, hay⟩ := hCc hplxk y (by omega) (by omega) hfk
      have hal : a.left ≤ xk' := (hSa a ha).2.1
      refine ⟨⟨a.left, parent.right, a.top, a.bottom⟩, ?_, ?_, ?_, ?_, ?_⟩
      · rw [hout]
        exact List.mem_append.mpr (Or.inr (List.mem_map.mpr ⟨a, ha, rfl⟩))
      · show x ≥ a.left; omega
      · show x ≤ parent.right; omega
      · show y ≤ a.top; omega
      · show y ≥ a.bottom; omega

/-- C3 amended witness: the spec's concrete scenario satisfies all
hypotheses, evaluated at the point `(3, 0)` (covered, since it is free). -/
theorem claim3_amended_witness :
    Rect.valid ⟨0, 5, 5, 0⟩ ∧
    (∀ o ∈ [(⟨0, 2, 5, 1⟩ : Rect)], o.valid) ∧
    (∀ o ∈ [(⟨0, 2, 5, 1⟩ : Rect)],
      Rect.contains_rectangle ⟨0, 5, 5, 0⟩ o) ∧
    ([(⟨0, 2, 5, 1⟩ : Rect)].Pairwise fun a b => ¬ a.overlaps b) ∧
    (∀ o ∈ [(⟨0, 2, 5, 1⟩ : Rect)], ∀ o' ∈ [(⟨0, 2, 5, 1⟩ : Rect)],
      o'.left ≠ o.right + 1) ∧
    ((∃ q ∈ unobstructed_subrectangles ⟨0, 5, 5, 0⟩ [⟨0, 2, 5, 1⟩],
        q.contains_point 3 0) ↔
      (Rect.contains_point ⟨0, 5, 5, 0⟩ 3 0 ∧
        ∀ o ∈ [(⟨0, 2, 5, 1⟩ : Rect)], ¬ o.contains_point 3 0)) :=
  ⟨by decide, by decide, by decide, by decide, by decide,
    claim3_amended_coverage ⟨0, 5, 5, 0⟩ [⟨0, 2, 5, 1⟩] (by decide)
      (by decide) (by decide) (by decide) (by decide) 3 0⟩

/-- C4: with no obstructions, the decomposition of a rectangle (valid per
the data model: `left ≤ right`, `bottom ≤ top`) is exactly the rectangle
itself. -/
theorem claim4_no_obstructions (R : Rect)
    (h1 : R.left ≤ R.right) (h2 : R.bottom ≤ R.top) :
    unobstructed_subrectangles R [] = [R] := by
  have e1 : sweepLines R [] = [⟨R.left, true⟩] := by
    have e0 : dedupByX (sortLines (buildLines R [])) = [⟨R.left, true⟩] := rfl
    unfold sweepLines
    rw [e0]
    simp [h1]
  have e2 : computeGaps R [] R.left = [⟨R.top, R.bottom⟩] := by
    unfold computeGaps covering gapScan
    simp [h2]
  unfold unobstructed_subrectangles sweepRun
  have e3 : sortObs [] = [] := rfl
  rw [e3, e1]
  simp only [List.foldl_cons, List.foldl_nil]
  unfold lineStep
  rw [e2]
  simp only [if_pos rfl]
  have e4 : sortActive [] = [] := rfl
  rw [e4]
  unfold openLoop openLoop
  simp

/-- C4 witness: the repository's own test rectangle `(0, 1, 2, 0)`. -/
theorem claim4_witness :
    (0 : Int) ≤ 1 ∧ (0 : Int) ≤ 2 ∧
    unobstructed_subrectangles ⟨0, 1, 2, 0⟩ [] = [⟨0, 1, 2, 0⟩] :=
  ⟨by decide, by decide,
    claim4_no_obstructions ⟨0, 1, 2, 0⟩ (by decide) (by decide)⟩

/-- C5: a valid rectangle fully covered by one obstruction with identical
sides decomposes into the empty sequence. -/
theorem claim5_fully_covered (R : Rect)
    (h1 : R.left ≤ R.right) (h2 : R.bottom ≤ R.top) :
    unobstructed_subrectangles R [R] = [] := by
  have e1 : sweepLines R [R] = [⟨R.left, true⟩] := by
    have e0 : sortLines (buildLines R [R]) =
        insertLine ⟨R.left, true⟩
          (insertLine ⟨R.left, false⟩ [⟨R.right + 1, true⟩]) := rfl
    unfold sweepLines
    rw [e0]
    rw [show insertLine ⟨R.left, false⟩ [⟨R.right + 1, true⟩] =
        if (R.right + 1 : Int) < R.left then
          ⟨R.right + 1, true⟩ :: insertLine ⟨R.left, false⟩ []
        else [⟨R.left, false⟩, ⟨R.right + 1, true⟩] from rfl]
    rw [if_neg (by omega : ¬ (R.right + 1 : Int) < R.left)]
    rw [show insertLine ⟨R.left, true⟩
          [⟨R.left, false⟩, ⟨R.right + 1, true⟩] =
        if (R.left : Int) < R.left then
          ⟨R.left, false⟩ ::
            insertLine ⟨R.left, true⟩ [⟨R.right + 1, true⟩]
        else
          [⟨R.left, true⟩, ⟨R.left, false⟩, ⟨R.right + 1, true⟩] from rfl]
    rw [if_neg (lt_irrefl R.left)]
    rw [show dedupByX [⟨R.left, true⟩, ⟨R.left, false⟩, ⟨R.right + 1, true⟩] =
        ⟨R.left, true⟩ ::
          (if (R.left : Int) = R.left then
            dedupLoop ⟨R.left, true⟩ [⟨R.right + 1, true⟩]
          else
            ⟨R.left, false⟩ :: dedupLoop ⟨R.left, false⟩ [⟨R.right + 1, true⟩])
        from rfl]
    rw [if_pos rfl]
    rw [show dedupLoop (⟨R.left, true⟩ : Line) [⟨R.right + 1, true⟩] =
        if (R.right + 1 : Int) = R.left then
          dedupLoop ⟨R.left, true⟩ []
        else ⟨R.right + 1, true⟩ :: dedupLoop ⟨R.right + 1, true⟩ [] from rfl]
    rw [if_neg (by omega : ¬ (R.right + 1 : Int) = R.left)]
    show List.filter _ ([⟨R.left, true⟩, ⟨R.right + 1, true⟩] : List Line) = _
    rw [List.filter_cons, List.filter_cons, List.filter_nil]
    rw [show (decide (R.left ≤ (⟨R.left, true⟩ : Line).x ∧
        (⟨R.left, true⟩ : Line).x ≤ R.right)) = true by simp [h1]]
    rw [show (decide (R.left ≤ (⟨R.right + 1, true⟩ : Line).x ∧
        (⟨R.right + 1, true⟩ : Line).x ≤ R.right)) = false by simp]
    rfl
  have e2 : computeGaps R [R] R.left = [] := by
    have ec : covering [R] R.left = [R] := by
      unfold covering
      rw [List.filter_cons, List.filter_nil]
      rw [show (decide (R.left ≤ R.left ∧ R.left ≤ R.right)) = true by
        simp [h1]]
      rfl
    unfold computeGaps
    rw [ec]
    rw [show gapScan R.top [R] =
        if R.top > R.top then
          ((⟨R.top, R.top + 1⟩ : Gap) ::
            (gapScan (min R.top (R.bottom - 1)) []).1,
            (gapScan (min R.top (R.bottom - 1)) []).2)
        else gapScan (min R.top (R.bottom - 1)) [] from rfl]
    rw [if_neg (lt_irrefl R.top)]
    rw [show gapScan (min R.top (R.bottom - 1)) [] =
        ([], min R.top (R.bottom - 1)) from rfl]
    rw [if_neg (by
      rw [min_eq_right (by omega : R.bottom - 1 ≤ R.top)]
      omega : ¬ (([], min R.top (R.bottom - 1)) :
        List Gap × Int).2 ≥ R.bottom)]
  unfold unobstructed_subrectangles sweepRun
  have e3 : sortObs [R] = [R] := rfl
  rw [e3, e1]
  simp only [List.foldl_cons, List.foldl_nil]
  unfold lineStep
  rw [e2]
  simp only [if_pos rfl]
  have e4 : sortActive [] = [] := rfl
  rw [e4]
  unfold openLoop
  simp

/-- C5 witness: the repository's own fully-obstructed test rectangle
`(0, 1, 2, 0)`. -/
theorem claim5_witness :
    (0 : Int) ≤ 1 ∧ (0 : Int) ≤ 2 ∧
    unobstructed_subrectangles ⟨0, 1, 2, 0⟩ [⟨0, 1, 2, 0⟩] = [] :=
  ⟨by decide, by decide,
    claim5_fully_covered ⟨0, 1, 2, 0⟩ (by decide) (by decide)⟩

/-- C7: at every point of the sweep — after any prefix of the event lines
has been processed — the active list holds no two rectangles with the same
`(top, bottom)` pair. -/
theorem claim7_shape_uniqueness (parent : Rect) (obstructions : List Rect)
    (p s : List Line)
    (h : sweepLines parent (sortObs obstructions) = p ++ s) :
    shapesUnique
      ((p.foldl (lineStep parent (sortObs obstructions)) ([], [])).1) := by
  clear h
  exact foldl_shapesUnique parent (sortObs obstructions) p ([], [])
    List.Pairwise.nil

/-- C7 witness: the spec's concrete scenario, after both of its event
lines. -/
theorem claim7_witness :
    sweepLines ⟨0, 5, 5, 0⟩ (sortObs [⟨0, 2, 5, 1⟩]) =
      [⟨0, true⟩, ⟨3, true⟩] ++ [] ∧
    shapesUnique
      ((List.foldl (lineStep ⟨0, 5, 5, 0⟩ (sortObs [⟨0, 2, 5, 1⟩])) ([], [])
        [⟨0, true⟩, ⟨3, true⟩]).1) :=
  ⟨by decide,
    claim7_shape_uniqueness ⟨0, 5, 5, 0⟩ [⟨0, 2, 5, 1⟩] [⟨0, true⟩, ⟨3, true⟩]
      [] (by decide)⟩

/-- C10: every output rectangle stays within the region's x-range:
`left ≥ region.left` and `right ≤ region.right`, for arbitrary
obstructions. -/
theorem claim10_output_within_x_range (parent : Rect)
    (obstructions : List Rect) (q : Rect)
    (hq : q ∈ unobstructed_subrectangles parent obstructions) :
    parent.left ≤ q.left ∧ q.right ≤ parent.right := by
  unfold unobstructed_subrectangles sweepRun at hq
  obtain ⟨hact, hout⟩ := foldl_bounds parent (sortObs obstructions)
    (sweepLines parent (sortObs obstructions)) ([], [])
    (sweepLines_mem_bounds parent (sortObs obstructions))
    (by intro a ha; cases ha) (by intro q hq; cases hq)
  rcases List.mem_append.mp hq with h1 | h1
  · exact hout q h1
  · obtain ⟨r, hr, he⟩ := List.mem_map.mp h1
    rw [← he]
    exact ⟨hact r hr, le_refl _⟩

/-- C10 witness: the spec's concrete scenario and its first output. -/
theorem claim10_witness :
    (⟨0, 5, 0, 0⟩ : Rect) ∈ unobstructed_subrectangles ⟨0, 5, 5, 0⟩
      [⟨0, 2, 5, 1⟩] ∧
    ((0 : Int) ≤ 0 ∧ (5 : Int) ≤ 5) :=
  ⟨by decide,
    claim10_output_within_x_range ⟨0, 5, 5, 0⟩ [⟨0, 2, 5, 1⟩] ⟨0, 5, 0, 0⟩
      (by decide)⟩

/-- C8: for valid rectangles, `intersection` is present exactly when
`overlaps` holds, and a present intersection is contained in both
arguments. -/
theorem claim8_intersection_overlaps (a b : Rect) (ha : a.valid) (hb : b.valid) :
    ((a.intersection b).isSome ↔ a.overlaps b) ∧
    (∀ i, a.intersection b = some i →
      a.contains_rectangle i ∧ b.contains_rectangle i) := by
  obtain ⟨ha1, ha2⟩ := ha
  obtain ⟨hb1, hb2⟩ := hb
  unfold Rect.intersection Rect.overlaps Rect.contains_rectangle
  by_cases h : max a.left b.left ≤ min a.right b.right ∧
      max a.bottom b.bottom ≤ min a.top b.top
  · simp only [if_pos h, Option.isSome_some, true_iff, Option.some.injEq]
    refine ⟨by omega, ?_⟩
    intro i hi
    subst hi
    dsimp only
    omega
  · simp only [if_neg h, Option.isSome_none, Bool.false_eq_true, false_iff]
    refine ⟨by omega, ?_⟩
    intro i hi
    exact Option.noConfusion hi

/-- C8 witness: at `a = (0, 2, 2, 0)` and `b = (1, 3, 3, 1)` (the doctest
example) the hypotheses hold and the conclusion follows. -/
theorem claim8_witness :
    Rect.valid ⟨0, 2, 2, 0⟩ ∧ Rect.valid ⟨1, 3, 3, 1⟩ ∧
    (((Rect.intersection ⟨0, 2, 2, 0⟩ ⟨1, 3, 3, 1⟩).isSome ↔
        Rect.overlaps ⟨0, 2, 2, 0⟩ ⟨1, 3, 3, 1⟩) ∧
      (∀ i, Rect.intersection ⟨0, 2, 2, 0⟩ ⟨1, 3, 3, 1⟩ = some i →
        Rect.contains_rectangle ⟨0, 2, 2, 0⟩ i ∧
        Rect.contains_rectangle ⟨1, 3, 3, 1⟩ i)) :=
  ⟨by decide, by decide,
    claim8_intersection_overlaps ⟨0, 2, 2, 0⟩ ⟨1, 3, 3, 1⟩ (by decide) (by decide)⟩

/-- C9: for `i32`-representable sides, `new_from_sides` followed by the
four accessors round-trips exactly despite the x/y/width/height
representation and its wrapping arithmetic. -/
theorem claim9_new_from_sides_roundtrip (l r t b : Int)
    (hl : inI32 l) (hr : inI32 r) (ht : inI32 t) (hb : inI32 b) :
    (BasicRectangle.new_from_sides l r t b).left = l ∧
    (BasicRectangle.new_from_sides l r t b).right = r ∧
    (BasicRectangle.new_from_sides l r t b).top = t ∧
    (BasicRectangle.new_from_sides l r t b).bottom = b := by
  unfold BasicRectangle.new_from_sides BasicRectangle.left BasicRectangle.right
    BasicRectangle.top BasicRectangle.bottom wrap32
  unfold inI32 at hl hr ht hb
  refine ⟨rfl, ?_, rfl, ?_⟩ <;> simp only [] <;> omega

/-- C9 witness: the doctest sides `(0, 1, 2, 3)` are representable and
round-trip. -/
theorem claim9_witness :
    inI32 0 ∧ inI32 1 ∧ inI32 2 ∧ inI32 3 ∧
    ((BasicRectangle.new_from_sides 0 1 2 3).left = 0 ∧
      (BasicRectangle.new_from_sides 0 1 2 3).right = 1 ∧
      (BasicRectangle.new_from_sides 0 1 2 3).top = 2 ∧
      (BasicRectangle.new_from_sides 0 1 2 3).bottom = 3) :=
  ⟨by decide, by decide, by decide, by decide,
    claim9_new_from_sides_roundtrip 0 1 2 3 (by decide) (by decide) (by decide)
      (by decide)⟩

end RectLib
